import Mathlib

/-!
Shallow embedding of the NEO database project (models.py, database.py,
filters.py).  Python strings are Lean `String`s, iterated character by
character through `String.data`.  Python `float` values appearing in the
data are modelled as rationals; the not-a-number sentinel used for unknown
diameters is modelled by `PFloat.nan` (all ordered comparisons with `nan`
are false, as in IEEE).  Mutable object graphs are modelled by indices:
`NearEarthObject.approaches` holds indices into the database's approach
list, and `CloseApproach.neo` holds an index into the database's NEO list
(`none` while unlinked).  Fallible Python operations (attribute access on
`None`, `float()` on a malformed string, `islice` with a negative bound)
are modelled with `Option`/`Except`.
-/

namespace NeoSys

/-- Calendar date (year, month, day): the value produced by the Python
`datetime.date()` truncation used by the date criteria. -/
structure Date where
  year : Nat
  month : Nat
  day : Nat
deriving DecidableEq, Repr, Inhabited

/-- Python `datetime`: calendar date plus time-of-day (seconds never occur
in the data set). -/
structure PyDateTime where
  date : Date
  hour : Nat
  minute : Nat
deriving DecidableEq, Repr, Inhabited

/-- A Python float that may be the not-a-number sentinel (used for unknown
diameters); finite values are modelled as rationals. -/
inductive PFloat where
  | nan : PFloat
  | fin : Rat → PFloat
deriving DecidableEq, Repr, Inhabited

/-- `models.NearEarthObject`: primary designation, optional IAU name
(the constructor normalises an empty-string name to `none`), diameter,
hazardous flag, and the list of linked close approaches, stored as indices
into the database's approach list. -/
structure NearEarthObject where
  designation : String
  name : Option String
  diameter : PFloat
  hazardous : Bool
  approaches : List Nat
deriving DecidableEq, Repr, Inhabited

/-- `models.CloseApproach`: the foreign-key designation (`_designation`),
the approach time, distance, velocity, and the linked NEO as an index into
the database's NEO list (`none` until linking resolves it). -/
structure CloseApproach where
  _designation : String
  time : PyDateTime
  distance : Rat
  velocity : Rat
  neo : Option Nat
deriving DecidableEq, Repr, Inhabited

/-! ### Character-level string utilities

`database.py` iterates Python strings character by character and
`helpers.py`/`models.py` parse numeric and date strings.  These helpers
work on `List Char` (`String.data`). -/

/-- Split a character list at every occurrence of `sep` (Python
`str.split(sep)` for a one-character separator). -/
def dsplit (sep : Char) : List Char → List (List Char)
  | [] => [[]]
  | c :: cs =>
    let r := dsplit sep cs
    if c = sep then [] :: r
    else
      match r with
      | [] => [[c]]
      | w :: ws => (c :: w) :: ws

/-- Parse a non-empty all-digit character list as a natural number. -/
def digitsToNat? (cs : List Char) : Option Nat :=
  if cs ≠ [] ∧ cs.all (·.isDigit) then
    some (cs.foldl (fun n c => n * 10 + (c.toNat - '0'.toNat)) 0)
  else none

/-- Python `float(s)` on the plain (unsigned) decimal literals that occur
in the data set, as an exact rational; `none` models the `ValueError` on a
malformed string. -/
def parseDecimal (s : String) : Option Rat :=
  match dsplit '.' s.data with
  | [w] => (digitsToNat? w).map (fun n => (n : Rat))
  | [w, f] => do
    let wn ← digitsToNat? w
    let fn ← digitsToNat? f
    some ((wn : Rat) + (fn : Rat) / ((10 : Rat) ^ f.length))
  | _ => none

/-- Three-letter English month abbreviation, as used in the compact
close-approach date format. -/
def monthNum (s : List Char) : Option Nat :=
  if s = "Jan".data then some 1
  else if s = "Feb".data then some 2
  else if s = "Mar".data then some 3
  else if s = "Apr".data then some 4
  else if s = "May".data then some 5
  else if s = "Jun".data then some 6
  else if s = "Jul".data then some 7
  else if s = "Aug".data then some 8
  else if s = "Sep".data then some 9
  else if s = "Oct".data then some 10
  else if s = "Nov".data then some 11
  else if s = "Dec".data then some 12
  else none

/-- Modelled from the spec: `cd_to_datetime` lives in `helpers.py`, which is
imported by `models.py` but is not part of the given sources.  Per the spec
the approach time is "a calendar date-time value (UTC), parsed from a
compact external representation" of the form `YYYY-Mon-DD HH:MM`
(e.g. `2020-Jan-01 00:00`). -/
def cd_to_datetime (calendar_date : String) : Option PyDateTime :=
  match dsplit ' ' calendar_date.data with
  | [ds, ts] =>
    match dsplit '-' ds, dsplit ':' ts with
    | [ys, ms, dds], [hs, mis] => do
      let y ← digitsToNat? ys
      let m ← monthNum ms
      let d ← digitsToNat? dds
      let hh ← digitsToNat? hs
      let mi ← digitsToNat? mis
      some ⟨⟨y, m, d⟩, hh, mi⟩
    | _, _ => none
  | _ => none

/-- `NearEarthObject.__init__`: normalises an empty name to `none`, parses
the diameter string (empty means unknown, i.e. `nan`), and compares the
hazardous string with `"Y"`; `approaches` starts empty.  `none` models the
`ValueError` raised by `float()` on a malformed diameter. -/
def NearEarthObject.make (designation : String) (name : Option String := none)
    (diameter : String := "") (hazardous : String := "") :
    Option NearEarthObject := do
  let dia ← if diameter = "" then some PFloat.nan
            else (parseDecimal diameter).map PFloat.fin
  some { designation := designation,
         name := if name = some "" then none else name,
         diameter := dia,
         hazardous := hazardous = "Y",
         approaches := [] }

/-- `CloseApproach.__init__`: parses the time, distance and velocity
strings; the NEO reference starts out `none`. -/
def CloseApproach.make (_designation : String) (time : String)
    (distance : String) (velocity : String) : Option CloseApproach := do
  let t ← cd_to_datetime time
  let d ← parseDecimal distance
  let v ← parseDecimal velocity
  some ⟨_designation, t, d, v, none⟩

/-! ### The character trie of `database.py`

Both auxiliary indexes in `NEODatabase.__init__` are tries implemented as
nested Python dicts: each node maps characters to child nodes and the key
`'$'` to the node's payload.  `PTrie α` models a node with payload type
`α`; for the approach trie the payload is the list of approach indices
whose designation spells the node's path (the `'$'` key is present iff the
list is non-empty), for the NEO trie it is an optional NEO index. -/

inductive PTrie (α : Type) where
  | mk : α → List (Char × PTrie α) → PTrie α

/-- Payload of a trie node (the `'$'` entry). -/
def PTrie.val {α : Type} : PTrie α → α
  | ⟨v, _⟩ => v

/-- Children of a trie node (the character-keyed entries). -/
def PTrie.children {α : Type} : PTrie α → List (Char × PTrie α)
  | ⟨_, ch⟩ => ch

/-- Look up the child of a node for character `c` (Python `node[ch]` after
an `ch in node` test). -/
def childVal {α : Type} (ch : List (Char × PTrie α)) (c : Char) :
    Option (PTrie α) :=
  (ch.find? (fun p => decide (p.1 = c))).map (·.2)

/-- Replace the child keyed `c` (in-place update of the Python dict entry,
which keeps its position). -/
def replaceChild {α : Type} (ch : List (Char × PTrie α)) (c : Char)
    (nt : PTrie α) : List (Char × PTrie α) :=
  ch.map (fun p => if p.1 = c then (c, nt) else p)

/-- Walk/create the full path `s` and update the payload at its end with
`f`; freshly created nodes carry payload `d` (Python: `node[ch] = {}` for
missing children — a new dict key is appended last — then the `'$'` entry
at the end of the path is updated). -/
def PTrie.insertW {α : Type} (d : α) (f : α → α) : PTrie α → List Char → PTrie α
  | t, [] => ⟨f t.val, t.children⟩
  | t, c :: cs =>
    match childVal t.children c with
    | some t' => ⟨t.val, replaceChild t.children c (insertW d f t' cs)⟩
    | none => ⟨t.val, t.children ++ [(c, insertW d f ⟨d, []⟩ cs)]⟩

/-- Exact descent along `s`: `some` node iff the full path exists. -/
def PTrie.findT {α : Type} : PTrie α → List Char → Option (PTrie α)
  | t, [] => some t
  | t, c :: cs =>
    match childVal t.children c with
    | some t' => findT t' cs
    | none => none

/-- The character-skipping walk of `database.py`:
`for ch in s: if ch in node: node = node[ch]`.  Characters with no child
edge are silently skipped. -/
def PTrie.walkT {α : Type} : PTrie α → List Char → PTrie α
  | t, [] => t
  | t, c :: cs =>
    match childVal t.children c with
    | some t' => walkT t' cs
    | none => walkT t cs

/-- The subsequence of `s` actually matched by the character-skipping walk
(the path of the node the walk ends on). -/
def PTrie.matchedT {α : Type} : PTrie α → List Char → List Char
  | _, [] => []
  | t, c :: cs =>
    match childVal t.children c with
    | some t' => c :: matchedT t' cs
    | none => matchedT t cs

/-- Payload found by exact descent along `s`. -/
def valAt {α : Type} (t : PTrie α) (s : List Char) : Option α :=
  (t.findT s).map PTrie.val

/-- The trie of close approaches keyed by designation: payload is the list
of approach indices, in input order. -/
abbrev CTrie := PTrie (List Nat)

/-- The trie of NEOs keyed by designation: payload is the index of the NEO
inserted at this designation (later inserts overwrite). -/
abbrev NTrie := PTrie (Option Nat)

/-- Insert one approach index at the end of the designation's bucket
(`node['$'].append(cad)` / `node['$'] = [cad]`). -/
def insertCad (t : CTrie) (s : List Char) (i : Nat) : CTrie :=
  t.insertW [] (fun b => b ++ [i]) s

/-- Insert one NEO index at the designation's node (`node['$'] = neo`). -/
def insertNeo (t : NTrie) (s : List Char) (j : Nat) : NTrie :=
  t.insertW none (fun _ => some j) s

/-- First phase of `NEODatabase.__init__`, one step per approach: insert
the approach at index `i` under its designation. -/
def buildCadTrieFrom : CTrie → Nat → List CloseApproach → CTrie
  | t, _, [] => t
  | t, i, a :: rest => buildCadTrieFrom (insertCad t a._designation.data i) (i + 1) rest

/-- First phase of `NEODatabase.__init__`: build the approach trie from the
whole approach collection, in input order. -/
def buildCadTrie (approaches : List CloseApproach) : CTrie :=
  buildCadTrieFrom ⟨[], []⟩ 0 approaches

/-- Set `cads[i].neo = some j` (Python mutates the approach object the
bucket refers to). -/
def setNeoRef : List CloseApproach → Nat → Nat → List CloseApproach
  | [], _, _ => []
  | a :: as, 0, j => { a with neo := some j } :: as
  | a :: as, i + 1, j => a :: setNeoRef as i j

/-- `database.NEODatabase`: the two collections (after linking), the two
designation tries, and the list of NEO indices collected by the
`neo.name != ''` test. -/
structure NEODatabase where
  neos : List NearEarthObject
  approaches : List CloseApproach
  neo_trie : NTrie
  cad_trie : CTrie
  named_neo_list : List Nat

/-- Second phase of `NEODatabase.__init__`: the loop over the NEOs.
For the NEO at index `j` it (1) appends `j` to the named list when
`neo.name != ''` (note: a `None` name also passes this Python test),
(2) walks the approach trie with the character-skipping walk and, if the
reached node has a `'$'` bucket, extends the NEO's `approaches` with it
and overwrites each bucketed approach's `neo` with `j`, and (3) inserts
the NEO into the NEO trie. -/
def linkLoop (ct : CTrie) :
    Nat → List NearEarthObject → List CloseApproach → NTrie → List Nat →
    List NearEarthObject × List CloseApproach × NTrie × List Nat
  | _, [], cads, nt, named => ([], cads, nt, named)
  | j, neo :: rest, cads, nt, named =>
    let named' := if neo.name ≠ some "" then named ++ [j] else named
    let b := (ct.walkT neo.designation.data).val
    let neo' := if b ≠ [] then { neo with approaches := neo.approaches ++ b }
                else neo
    let cads' := if b ≠ [] then b.foldl (fun cs i => setNeoRef cs i j) cads
                 else cads
    let nt' := insertNeo nt neo.designation.data j
    let out := linkLoop ct (j + 1) rest cads' nt' named'
    (neo' :: out.1, out.2.1, out.2.2.1, out.2.2.2)

/-- `NEODatabase.__init__`: build the approach trie, then run the linking
loop over the NEOs. -/
def NEODatabase.build (neos : List NearEarthObject)
    (approaches : List CloseApproach) : NEODatabase :=
  let ct := buildCadTrie approaches
  let out := linkLoop ct 0 neos approaches ⟨none, []⟩ []
  ⟨out.1, out.2.1, out.2.2.1, ct, out.2.2.2⟩

/-- `NEODatabase.get_neo_by_designation`: character-skipping walk of the
NEO trie, returning the reached node's `'$'` payload. -/
def get_neo_by_designation (db : NEODatabase) (designation : String) :
    Option Nat :=
  (db.neo_trie.walkT designation.data).val

/-- `NEODatabase.get_neo_by_name`: full scan of `named_neo_list`, the last
NEO whose `name` equals the argument wins. -/
def get_neo_by_name (db : NEODatabase) (name : Option String) : Option Nat :=
  db.named_neo_list.foldl
    (fun acc j => if (db.neos.getD j default).name = name then some j else acc)
    none

/-! ### Filters and the query engine (`filters.py`, `NEODatabase.query`) -/

/-- The dictionary returned by `create_filters`: ten independently optional
criteria. -/
structure Filters where
  date : Option Date
  start_date : Option Date
  end_date : Option Date
  distance_min : Option Rat
  distance_max : Option Rat
  velocity_min : Option Rat
  velocity_max : Option Rat
  diameter_min : Option Rat
  diameter_max : Option Rat
  hazardous : Option Bool
deriving DecidableEq, Repr

/-- `filters.create_filters`: package the ten optional criteria, each
defaulting to unset. -/
def create_filters (date : Option Date := none)
    (start_date : Option Date := none) (end_date : Option Date := none)
    (distance_min : Option Rat := none) (distance_max : Option Rat := none)
    (velocity_min : Option Rat := none) (velocity_max : Option Rat := none)
    (diameter_min : Option Rat := none) (diameter_max : Option Rat := none)
    (hazardous : Option Bool := none) : Filters :=
  ⟨date, start_date, end_date, distance_min, distance_max, velocity_min,
   velocity_max, diameter_min, diameter_max, hazardous⟩

/-- The three comparators from the `operator` module used by `query`. -/
inductive PyOp where
  | eq : PyOp
  | ge : PyOp
  | le : PyOp
deriving DecidableEq, Repr

/-- A criterion's reference value. -/
inductive PyVal where
  | vdate : Date → PyVal
  | vrat : Rat → PyVal
  | vbool : Bool → PyVal
deriving DecidableEq, Repr

/-- The attribute names `valid_attribute` is called with. -/
inductive AttrName where
  | time : AttrName
  | distance : AttrName
  | velocity : AttrName
  | diameter : AttrName
  | hazardous : AttrName
deriving DecidableEq, Repr

/-- Lexicographic order on calendar dates (Python `date` comparison). -/
def dateLe (a b : Date) : Bool :=
  if a.year = b.year then
    (if a.month = b.month then decide (a.day ≤ b.day)
     else decide (a.month < b.month))
  else decide (a.year < b.year)

/-- `op(x, v)` for dates. -/
def opDate : PyOp → Date → Date → Bool
  | .eq, x, v => decide (x = v)
  | .ge, x, v => dateLe v x
  | .le, x, v => dateLe x v

/-- `op(x, v)` for finite floats. -/
def opRat : PyOp → Rat → Rat → Bool
  | .eq, x, v => decide (x = v)
  | .ge, x, v => decide (v ≤ x)
  | .le, x, v => decide (x ≤ v)

/-- `op(x, v)` for a possibly-`nan` float against a finite reference value:
every comparison with `nan` is false. -/
def opPFloat : PyOp → PFloat → Rat → Bool
  | _, .nan, _ => false
  | op, .fin x, v => opRat op x v

/-- `op(x, v)` for booleans (Python treats them as 0/1 for ordering). -/
def opBool : PyOp → Bool → Bool → Bool
  | .eq, x, v => x == v
  | .ge, x, v => decide (v.toNat ≤ x.toNat)
  | .le, x, v => decide (x.toNat ≤ v.toNat)

/-- `filters.valid_attribute`: for the NEO-level attributes (`diameter`,
`hazardous`) the target is `approach.neo` — when that is `None` the
`getattr` raises `AttributeError`, modelled as `.error ()`.  For `time`
the comparison is applied to `approach.time.date()`.  Mismatched value
kinds (which `query` never produces) are also modelled as errors. -/
def valid_attribute (neos : List NearEarthObject) (approach : CloseApproach)
    (op : PyOp) (value : PyVal) (attr : AttrName) : Except Unit Bool :=
  match attr with
  | .time =>
    match value with
    | .vdate v => .ok (opDate op approach.time.date v)
    | _ => .error ()
  | .distance =>
    match value with
    | .vrat v => .ok (opRat op approach.distance v)
    | _ => .error ()
  | .velocity =>
    match value with
    | .vrat v => .ok (opRat op approach.velocity v)
    | _ => .error ()
  | .diameter =>
    match approach.neo with
    | none => .error ()
    | some j =>
      match value with
      | .vrat v => .ok (opPFloat op (neos.getD j default).diameter v)
      | _ => .error ()
  | .hazardous =>
    match approach.neo with
    | none => .error ()
    | some j =>
      match value with
      | .vbool v => .ok (opBool op (neos.getD j default).hazardous v)
      | _ => .error ()

/-- One criterion line of `query`'s body:
`if filters[k] is not None and not valid_attribute(...): fits = False`.
An unset criterion leaves `fits` unchanged; an exception raised earlier or
by this criterion's `valid_attribute` call propagates. -/
def apCrit {β : Type} (neos : List NearEarthObject)
    (approach : CloseApproach) (fits : Except Unit Bool) (crit : Option β)
    (op : PyOp) (mk : β → PyVal) (attr : AttrName) : Except Unit Bool :=
  match crit with
  | none => fits
  | some v => do
    let f ← fits
    let b ← valid_attribute neos approach op (mk v) attr
    pure (f && b)

/-- The per-approach body of `NEODatabase.query`: the ten criteria are
evaluated in source order (all of them — there is no short-circuiting once
`fits_criteria` is false), and the approach fits iff all active criteria
hold. -/
def checkApproach (neos : List NearEarthObject) (filters : Filters)
    (approach : CloseApproach) : Except Unit Bool :=
  let r := Except.ok true
  let r := apCrit neos approach r filters.date .eq PyVal.vdate .time
  let r := apCrit neos approach r filters.start_date .ge PyVal.vdate .time
  let r := apCrit neos approach r filters.end_date .le PyVal.vdate .time
  let r := apCrit neos approach r filters.distance_min .ge PyVal.vrat .distance
  let r := apCrit neos approach r filters.distance_max .le PyVal.vrat .distance
  let r := apCrit neos approach r filters.velocity_min .ge PyVal.vrat .velocity
  let r := apCrit neos approach r filters.velocity_max .le PyVal.vrat .velocity
  let r := apCrit neos approach r filters.diameter_min .ge PyVal.vrat .diameter
  let r := apCrit neos approach r filters.diameter_max .le PyVal.vrat .diameter
  let r := apCrit neos approach r filters.hazardous .eq PyVal.vbool .hazardous
  r

/-- Result of running the `query` generator to exhaustion: the indices of
the yielded approaches, and whether the generator finished normally
(`ok = false` means an exception escaped after the listed yields). -/
structure QueryResult where
  yielded : List Nat
  ok : Bool
deriving DecidableEq, Repr

/-- `NEODatabase.query`, driven to completion over the approach list
starting at index `i`: each approach that fits all criteria is yielded; an
exception aborts the stream. -/
def queryLoop (neos : List NearEarthObject) (filters : Filters) :
    Nat → List CloseApproach → QueryResult
  | _, [] => ⟨[], true⟩
  | i, a :: rest =>
    match checkApproach neos filters a with
    | .error _ => ⟨[], false⟩
    | .ok fits =>
      let r := queryLoop neos filters (i + 1) rest
      ⟨(if fits then [i] else []) ++ r.yielded, r.ok⟩

/-- Run `query` on a database. -/
def NEODatabase.query (db : NEODatabase) (filters : Filters) : QueryResult :=
  queryLoop db.neos filters 0 db.approaches

/-- `filters.limit`: `n = 10 if (n == 0 or n is None) else n`, then
`itertools.islice(iterator, n)` — which raises `ValueError` on a negative
bound, modelled as `.error ()`. -/
def limit {α : Type} (iterator : List α) (n : Option Int := none) :
    Except Unit (List α) :=
  let m : Int := if n = some 0 ∨ n = none then 10 else n.getD 0
  if m < 0 then .error () else .ok (iterator.take m.toNat)

/-- The approach indices (starting the count at `n`) whose foreign-key
designation equals `des`, in input order: the reference description of a
correct designation join. -/
def matching : Nat → List CloseApproach → String → List Nat
  | _, [], _ => []
  | n, a :: rest, des =>
    (if a._designation = des then [n] else []) ++ matching (n + 1) rest des

/-- The index (starting the count at `j`) of the last NEO in the list whose
designation equals `s`, if any: with unique designations, the index of the
NEO the designation belongs to. -/
def lastNeoIdx : Nat → List NearEarthObject → String → Option Nat
  | _, [], _ => none
  | j, neo :: rest, s =>
    match lastNeoIdx (j + 1) rest s with
    | some k => some k
    | none => if neo.designation = s then some j else none

/-- The index (starting the count at `j`) of the last NEO in the list whose
(normalised) name equals `nm`, if any. -/
def lastNameIdx : Nat → List NearEarthObject → Option String → Option Nat
  | _, [], _ => none
  | j, neo :: rest, nm =>
    match lastNameIdx (j + 1) rest nm with
    | some k => some k
    | none => if neo.name = nm then some j else none

/-- The indices (starting the count at `j`) collected by the
`neo.name != ''` test of the linking loop. -/
def namedIdx : Nat → List NearEarthObject → List Nat
  | _, [] => []
  | j, neo :: rest => (if neo.name ≠ some "" then [j] else []) ++ namedIdx (j + 1) rest

/-- The bucket (`'$'` list, empty when the key is absent) found by exact
descent in an approach trie. -/
def bAt (t : CTrie) (s : List Char) : List Nat :=
  (valAt t s).getD []

/-- The NEO payload (`'$'` entry, `none` when the key is absent) found by
exact descent in a NEO trie. -/
def pAt (t : NTrie) (s : List Char) : Option Nat :=
  (valAt t s).getD none

/-- The filter set with no active criterion (`create_filters` with every
argument left unset). -/
def emptyFilterSet : Filters :=
  create_filters none none none none none none none none none none

end NeoSys

namespace NeoSys

/-! ### Basic trie lemmas -/

theorem childVal_nil {α : Type} {c : Char} :
    childVal ([] : List (Char × PTrie α)) c = none := rfl

theorem childVal_cons {α : Type} {c' c : Char} {t : PTrie α}
    {ch : List (Char × PTrie α)} :
    childVal ((c', t) :: ch) c = if c' = c then some t else childVal ch c := by
  by_cases h : c' = c <;> simp [childVal, List.find?, h]

theorem childVal_replace_self {α : Type} {ch : List (Char × PTrie α)}
    {c : Char} {t' nt : PTrie α} (h : childVal ch c = some t') :
    childVal (replaceChild ch c nt) c = some nt := by
  induction ch with
  | nil => simp [childVal] at h
  | cons p rest ih =>
    obtain ⟨c₀, t₀⟩ := p
    by_cases hc : c₀ = c
    · subst hc
      simp [replaceChild, childVal_cons]
    · rw [childVal_cons, if_neg hc] at h
      have : replaceChild ((c₀, t₀) :: rest) c nt
          = (c₀, t₀) :: replaceChild rest c nt := by
        simp [replaceChild, hc]
      rw [this, childVal_cons, if_neg hc]
      exact ih h

theorem childVal_replace_ne {α : Type} {ch : List (Char × PTrie α)}
    {c c' : Char} {nt : PTrie α} (h : c' ≠ c) :
    childVal (replaceChild ch c nt) c' = childVal ch c' := by
  induction ch with
  | nil => simp [replaceChild]
  | cons p rest ih =>
    obtain ⟨c₀, t₀⟩ := p
    by_cases hc : c₀ = c
    · subst hc
      have : replaceChild ((c₀, t₀) :: rest) c₀ nt
          = (c₀, nt) :: replaceChild rest c₀ nt := by
        simp [replaceChild]
      rw [this, childVal_cons, childVal_cons, if_neg (fun hh => h hh.symm), if_neg (fun hh => h hh.symm)]
      exact ih
    · have : replaceChild ((c₀, t₀) :: rest) c nt
          = (c₀, t₀) :: replaceChild rest c nt := by
        simp [replaceChild, hc]
      rw [this, childVal_cons, childVal_cons]
      by_cases h0 : c₀ = c'
      · simp [h0]
      · simp [h0, ih]

theorem childVal_append_self {α : Type} {ch : List (Char × PTrie α)}
    {c : Char} {nt : PTrie α} (h : childVal ch c = none) :
    childVal (ch ++ [(c, nt)]) c = some nt := by
  induction ch with
  | nil => simp [childVal, List.find?]
  | cons p rest ih =>
    obtain ⟨c₀, t₀⟩ := p
    rw [childVal_cons] at h
    by_cases hc : c₀ = c
    · simp [hc] at h
    · rw [if_neg hc] at h
      rw [List.cons_append, childVal_cons, if_neg hc]
      exact ih h

theorem childVal_append_ne {α : Type} {ch : List (Char × PTrie α)}
    {c c' : Char} {nt : PTrie α} (h : c' ≠ c) :
    childVal (ch ++ [(c, nt)]) c' = childVal ch c' := by
  induction ch with
  | nil => simp [childVal, List.find?, Ne.symm h]
  | cons p rest ih =>
    obtain ⟨c₀, t₀⟩ := p
    rw [List.cons_append, childVal_cons, childVal_cons]
    by_cases h0 : c₀ = c'
    · simp [h0]
    · simp [h0, ih]

theorem val_mk {α : Type} (v : α) (ch : List (Char × PTrie α)) :
    (PTrie.mk v ch).val = v := rfl

theorem children_mk {α : Type} (v : α) (ch : List (Char × PTrie α)) :
    (PTrie.mk v ch).children = ch := rfl

theorem insertW_nil {α : Type} (d : α) (f : α → α) (t : PTrie α) :
    PTrie.insertW d f t [] = ⟨f t.val, t.children⟩ := rfl

theorem insertW_cons {α : Type} (d : α) (f : α → α) (t : PTrie α)
    (c : Char) (cs : List Char) :
    PTrie.insertW d f t (c :: cs)
      = match childVal t.children c with
        | some t' => ⟨t.val, replaceChild t.children c (PTrie.insertW d f t' cs)⟩
        | none => ⟨t.val, t.children ++ [(c, PTrie.insertW d f ⟨d, []⟩ cs)]⟩ := rfl

theorem valAt_nil {α : Type} (t : PTrie α) : valAt t [] = some t.val := by
  simp [valAt, PTrie.findT]

theorem valAt_cons {α : Type} (t : PTrie α) (c : Char) (cs : List Char) :
    valAt t (c :: cs)
      = match childVal t.children c with
        | some t' => valAt t' cs
        | none => none := by
  cases h : childVal t.children c <;> simp [valAt, PTrie.findT, h]

theorem valAt_leaf {α : Type} (d : α) (s : List Char) :
    valAt (⟨d, []⟩ : PTrie α) s = if s = [] then some d else none := by
  cases s with
  | nil => simp [valAt_nil, PTrie.val]
  | cons c cs => simp [valAt_cons, PTrie.children, childVal_nil]

/-- The central trie-update lemma: inserting along path `s'` updates only
the value read back at exactly `s'` (reading with default `d`, the payload
given to freshly created nodes). -/
theorem valAt_getD_insertW {α : Type} (d : α) (f : α → α) :
    ∀ (s' : List Char) (t : PTrie α) (s : List Char),
    (valAt (PTrie.insertW d f t s') s).getD d
      = if s = s' then f ((valAt t s).getD d) else (valAt t s).getD d := by
  intro s'
  induction s' with
  | nil =>
    intro t s
    cases s with
    | nil => simp [insertW_nil, valAt_nil, val_mk]
    | cons c cs =>
      rw [insertW_nil, valAt_cons, valAt_cons, children_mk]
      simp
  | cons c' cs' ih =>
    intro t s
    cases hch : childVal t.children c' with
    | some t' =>
      have hins : PTrie.insertW d f t (c' :: cs')
          = ⟨t.val, replaceChild t.children c' (PTrie.insertW d f t' cs')⟩ := by
        rw [insertW_cons, hch]
      cases s with
      | nil =>
        rw [hins, valAt_nil, valAt_nil, val_mk]
        simp
      | cons c cs =>
        by_cases hc : c = c'
        · subst hc
          rw [hins, valAt_cons, valAt_cons, children_mk,
            childVal_replace_self hch, hch]
          simp only [List.cons.injEq, true_and]
          exact ih t' cs
        · rw [hins, valAt_cons, valAt_cons, children_mk,
            childVal_replace_ne hc, if_neg (by simp [hc])]
    | none =>
      have hins : PTrie.insertW d f t (c' :: cs')
          = ⟨t.val, t.children ++ [(c', PTrie.insertW d f ⟨d, []⟩ cs')]⟩ := by
        rw [insertW_cons, hch]
      cases s with
      | nil =>
        rw [hins, valAt_nil, valAt_nil, val_mk]
        simp
      | cons c cs =>
        by_cases hc : c = c'
        · subst hc
          rw [hins, valAt_cons, valAt_cons, children_mk,
            childVal_append_self hch, hch]
          simp only [List.cons.injEq, true_and]
          rw [ih ⟨d, []⟩ cs, valAt_leaf]
          by_cases hcs : cs = cs'
          · simp only [hcs, if_pos rfl]
            by_cases hnil : cs' = [] <;> simp [hnil]
          · simp only [hcs, if_neg hcs]
            by_cases hnil : cs = [] <;> simp [hnil]
        · rw [hins, valAt_cons, valAt_cons, children_mk,
            childVal_append_ne hc, if_neg (by simp [hc])]

theorem findT_nil {α : Type} (t : PTrie α) : t.findT [] = some t := rfl

theorem findT_cons {α : Type} (t : PTrie α) (c : Char) (cs : List Char) :
    t.findT (c :: cs)
      = match childVal t.children c with
        | some t' => t'.findT cs
        | none => none := rfl

theorem walkT_nil {α : Type} (t : PTrie α) : t.walkT [] = t := rfl

theorem walkT_cons {α : Type} (t : PTrie α) (c : Char) (cs : List Char) :
    t.walkT (c :: cs)
      = match childVal t.children c with
        | some t' => t'.walkT cs
        | none => t.walkT cs := rfl

theorem matchedT_nil {α : Type} (t : PTrie α) : t.matchedT [] = [] := rfl

theorem matchedT_cons {α : Type} (t : PTrie α) (c : Char) (cs : List Char) :
    t.matchedT (c :: cs)
      = match childVal t.children c with
        | some t' => c :: t'.matchedT cs
        | none => t.matchedT cs := rfl

/-- A full path determines the walk: the character-skipping walk follows an
existing path exactly. -/
theorem walk_of_find {α : Type} :
    ∀ (s : List Char) (t u : PTrie α), t.findT s = some u → t.walkT s = u := by
  intro s
  induction s with
  | nil =>
    intro t u h
    rw [findT_nil] at h
    cases h
    rw [walkT_nil]
  | cons c cs ih =>
    intro t u h
    rw [findT_cons] at h
    rw [walkT_cons]
    cases hch : childVal t.children c with
    | some t' => rw [hch] at h; exact ih t' u h
    | none => rw [hch] at h; cases h

/-- Exact descent along the matched subsequence reaches the node the
character-skipping walk ends on. -/
theorem find_matched {α : Type} :
    ∀ (s : List Char) (t : PTrie α), t.findT (t.matchedT s) = some (t.walkT s) := by
  intro s
  induction s with
  | nil => intro t; rw [matchedT_nil, findT_nil, walkT_nil]
  | cons c cs ih =>
    intro t
    rw [matchedT_cons, walkT_cons]
    cases hch : childVal t.children c with
    | some t' => rw [findT_cons, hch]; exact ih t'
    | none => exact ih t

theorem matched_length {α : Type} :
    ∀ (s : List Char) (t : PTrie α), (t.matchedT s).length ≤ s.length := by
  intro s
  induction s with
  | nil => intro t; rw [matchedT_nil]
  | cons c cs ih =>
    intro t
    rw [matchedT_cons]
    cases hch : childVal t.children c with
    | some t' =>
      show (c :: t'.matchedT cs).length ≤ (c :: cs).length
      simp only [List.length_cons]
      exact Nat.succ_le_succ (ih t')
    | none =>
      show (t.matchedT cs).length ≤ (c :: cs).length
      exact le_trans (ih t) (by simp)

theorem matched_eq_of_length {α : Type} :
    ∀ (s : List Char) (t : PTrie α),
    (t.matchedT s).length = s.length → t.matchedT s = s := by
  intro s
  induction s with
  | nil => intro t _; rw [matchedT_nil]
  | cons c cs ih =>
    intro t h
    rw [matchedT_cons] at h ⊢
    cases hch : childVal t.children c with
    | some t' =>
      rw [hch] at h
      have h' : (t'.matchedT cs).length = cs.length := by
        have h2 : (c :: t'.matchedT cs).length = (c :: cs).length := h
        simpa using h2
      show c :: t'.matchedT cs = c :: cs
      rw [ih t' h']
    | none =>
      rw [hch] at h
      have h' : (t.matchedT cs).length = (c :: cs).length := h
      have hml := matched_length cs t
      simp only [List.length_cons] at h'
      omega

/-! ### The two designation tries of the database -/

theorem bAt_insertCad (t : CTrie) (s' s : List Char) (i : Nat) :
    bAt (insertCad t s' i) s = if s = s' then bAt t s ++ [i] else bAt t s :=
  valAt_getD_insertW [] (fun b => b ++ [i]) s' t s

theorem pAt_insertNeo (t : NTrie) (s' s : List Char) (j : Nat) :
    pAt (insertNeo t s' j) s = if s = s' then some j else pAt t s := by
  have := valAt_getD_insertW none (fun _ => some j) s' t s
  simpa [pAt, insertNeo] using this

theorem bAt_root (s : List Char) : bAt (⟨[], []⟩ : CTrie) s = [] := by
  rw [bAt, valAt_leaf]
  split <;> simp

theorem findT_isSome_of_bAt_ne {t : CTrie} {s : List Char} (h : bAt t s ≠ []) :
    (t.findT s).isSome := by
  cases hf : t.findT s with
  | some u => rfl
  | none => rw [bAt, valAt, hf] at h; simp at h

theorem findT_isSome_of_pAt_some {t : NTrie} {s : List Char} {k : Nat}
    (h : pAt t s = some k) : (t.findT s).isSome := by
  cases hf : t.findT s with
  | some u => rfl
  | none => rw [pAt, valAt, hf] at h; simp at h

theorem string_data_inj {a b : String} : a.data = b.data ↔ a = b :=
  ⟨fun h => by cases a; cases b; exact congrArg String.mk (by simpa using h),
   fun h => h ▸ rfl⟩

theorem bAt_buildCadTrieFrom :
    ∀ (cads : List CloseApproach) (t : CTrie) (i : Nat) (des : String),
    bAt (buildCadTrieFrom t i cads) des.data
      = bAt t des.data ++ matching i cads des := by
  intro cads
  induction cads with
  | nil => intro t i des; simp [buildCadTrieFrom, matching]
  | cons a rest ih =>
    intro t i des
    show bAt (buildCadTrieFrom (insertCad t a._designation.data i) (i + 1) rest)
        des.data = _
    rw [ih, bAt_insertCad]
    by_cases hd : a._designation = des
    · rw [if_pos (by rw [hd]), matching, hd, if_pos rfl]
      simp
    · rw [if_neg (fun hh => hd (string_data_inj.mp hh.symm)), matching,
        if_neg hd]
      simp

theorem bAt_buildCadTrie (cads : List CloseApproach) (des : String) :
    bAt (buildCadTrie cads) des.data = matching 0 cads des := by
  rw [buildCadTrie, bAt_buildCadTrieFrom, bAt_root, List.nil_append]

theorem mem_matching :
    ∀ (cads : List CloseApproach) (n : Nat) (des : String) (i : Nat),
    i ∈ matching n cads des
      ↔ ∃ k a, cads.get? k = some a ∧ a._designation = des ∧ i = n + k := by
  intro cads
  induction cads with
  | nil =>
    intro n des i
    simp [matching]
  | cons a rest ih =>
    intro n des i
    rw [matching, List.mem_append, ih]
    constructor
    · rintro (h | ⟨k, b, hk, hdes, hi⟩)
      · by_cases hd : a._designation = des
        · rw [if_pos hd] at h
          simp at h
          exact ⟨0, a, rfl, hd, by omega⟩
        · rw [if_neg hd] at h
          simp at h
      · exact ⟨k + 1, b, hk, hdes, by omega⟩
    · rintro ⟨k, b, hk, hdes, hi⟩
      cases k with
      | zero =>
        left
        simp at hk
        subst hk
        rw [if_pos hdes]
        simp
        omega
      | succ k' =>
        right
        exact ⟨k', b, hk, hdes, by omega⟩

theorem matching_ne_nil_ex {cads : List CloseApproach} {n : Nat} {des : String}
    (h : matching n cads des ≠ []) : ∃ a, a ∈ cads ∧ a._designation = des := by
  obtain ⟨i, hi⟩ := List.exists_mem_of_ne_nil _ h
  obtain ⟨k, a, hk, hdes, _⟩ := (mem_matching cads n des i).mp hi
  exact ⟨a, List.get?_mem hk, hdes⟩

/-- The key linking fact: when every designation in play has the same
length `L`, the character-skipping walk of a designation over the approach
trie finds exactly the approaches with that very designation. -/
theorem walk_val_buildCadTrie (cads : List CloseApproach) (des : String)
    (L : Nat) (hc : ∀ a ∈ cads, a._designation.data.length = L)
    (hd : des.data.length = L) :
    ((buildCadTrie cads).walkT des.data).val = matching 0 cads des := by
  have hb : ∀ x : String, bAt (buildCadTrie cads) x.data = matching 0 cads x :=
    fun x => bAt_buildCadTrie cads x
  have hfm : (buildCadTrie cads).findT ((buildCadTrie cads).matchedT des.data)
      = some ((buildCadTrie cads).walkT des.data) := find_matched _ _
  have hv : ((buildCadTrie cads).walkT des.data).val
      = bAt (buildCadTrie cads) ((buildCadTrie cads).matchedT des.data) := by
    rw [bAt, valAt, hfm]
    rfl
  have hm : bAt (buildCadTrie cads) ((buildCadTrie cads).matchedT des.data)
      = matching 0 cads ⟨(buildCadTrie cads).matchedT des.data⟩ :=
    hb ⟨(buildCadTrie cads).matchedT des.data⟩
  by_cases hne : matching 0 cads (⟨(buildCadTrie cads).matchedT des.data⟩ : String) = []
  · have hwv : ((buildCadTrie cads).walkT des.data).val = [] := by
      rw [hv, hm, hne]
    rw [hwv]
    by_contra hcon
    have hne2 : matching 0 cads des ≠ [] := fun hh => hcon hh.symm
    have hsome := findT_isSome_of_bAt_ne (t := buildCadTrie cads)
      (s := des.data) (by rw [hb des]; exact hne2)
    obtain ⟨u, hu⟩ := Option.isSome_iff_exists.mp hsome
    have hw := walk_of_find des.data _ u hu
    have hbu : bAt (buildCadTrie cads) des.data = u.val := by
      rw [bAt, valAt, hu]
      rfl
    apply hne2
    rw [← hb des, hbu, ← hw, hwv]
  · obtain ⟨a, ha, hadeseq⟩ := matching_ne_nil_ex hne
    have hlen : ((buildCadTrie cads).matchedT des.data).length = L := by
      have := hc a ha
      rw [hadeseq] at this
      exact this
    have hmeq : (buildCadTrie cads).matchedT des.data = des.data :=
      matched_eq_of_length _ _ (by rw [hlen, hd])
    rw [hv, hm]
    congr 1
    exact string_data_inj.mp hmeq

/-! ### The linking loop -/

theorem pAt_linkLoop (ct : CTrie) :
    ∀ (neos : List NearEarthObject) (j : Nat) (cads : List CloseApproach)
      (nt : NTrie) (named : List Nat) (s : String),
    pAt (linkLoop ct j neos cads nt named).2.2.1 s.data
      = match lastNeoIdx j neos s with
        | some k => some k
        | none => pAt nt s.data := by
  intro neos
  induction neos with
  | nil => intro j cads nt named s; simp [linkLoop, lastNeoIdx]
  | cons neo rest ih =>
    intro j cads nt named s
    simp only [linkLoop]
    rw [ih]
    cases hl : lastNeoIdx (j + 1) rest s with
    | some k => simp [lastNeoIdx, hl]
    | none =>
      simp only [lastNeoIdx, hl, pAt_insertNeo]
      by_cases hd : neo.designation = s
      · rw [if_pos (by rw [hd]), if_pos hd]
      · rw [if_neg (fun hh => hd (string_data_inj.mp hh).symm), if_neg hd]

theorem linkLoop_neos_get (ct : CTrie) :
    ∀ (neos : List NearEarthObject) (j : Nat) (cads : List CloseApproach)
      (nt : NTrie) (named : List Nat) (k : Nat),
    (linkLoop ct j neos cads nt named).1.get? k
      = (neos.get? k).map (fun neo =>
          { neo with approaches :=
              neo.approaches ++ (ct.walkT neo.designation.data).val }) := by
  intro neos
  induction neos with
  | nil => intro j cads nt named k; simp [linkLoop]
  | cons neo rest ih =>
    intro j cads nt named k
    simp only [linkLoop]
    cases k with
    | zero =>
      simp only [List.get?_cons_zero, Option.map_some']
      by_cases hb : (ct.walkT neo.designation.data).val = []
      · rw [if_neg (by simp [hb]), hb]
        cases neo
        simp
      · rw [if_pos hb]
    | succ k' =>
      simp only [List.get?_cons_succ]
      exact ih (j + 1) _ _ _ k'

theorem linkLoop_named (ct : CTrie) :
    ∀ (neos : List NearEarthObject) (j : Nat) (cads : List CloseApproach)
      (nt : NTrie) (named : List Nat),
    (linkLoop ct j neos cads nt named).2.2.2 = named ++ namedIdx j neos := by
  intro neos
  induction neos with
  | nil => intro j cads nt named; simp [linkLoop, namedIdx]
  | cons neo rest ih =>
    intro j cads nt named
    simp only [linkLoop]
    rw [ih]
    by_cases hn : neo.name ≠ some ""
    · rw [if_pos hn, namedIdx, if_pos hn, List.append_assoc]
    · rw [if_neg hn, namedIdx, if_neg hn, List.nil_append]

theorem setNeoRef_length :
    ∀ (cads : List CloseApproach) (i j : Nat),
    (setNeoRef cads i j).length = cads.length := by
  intro cads
  induction cads with
  | nil => intro i j; rfl
  | cons a rest ih =>
    intro i j
    cases i with
    | zero => rfl
    | succ i' => simp [setNeoRef, ih]

theorem foldl_setNeoRef_length :
    ∀ (b : List Nat) (cads : List CloseApproach) (j : Nat),
    (b.foldl (fun cs i => setNeoRef cs i j) cads).length = cads.length := by
  intro b
  induction b with
  | nil => intro cads j; rfl
  | cons x xs ih =>
    intro cads j
    rw [List.foldl_cons, ih, setNeoRef_length]

theorem linkLoop_cads_length (ct : CTrie) :
    ∀ (neos : List NearEarthObject) (j : Nat) (cads : List CloseApproach)
      (nt : NTrie) (named : List Nat),
    (linkLoop ct j neos cads nt named).2.1.length = cads.length := by
  intro neos
  induction neos with
  | nil => intro j cads nt named; rfl
  | cons neo rest ih =>
    intro j cads nt named
    simp only [linkLoop]
    rw [ih]
    by_cases hb : (ct.walkT neo.designation.data).val = []
    · rw [if_neg (by simp [hb])]
    · rw [if_pos hb, foldl_setNeoRef_length]

theorem setNeoRef_get :
    ∀ (cads : List CloseApproach) (x j i : Nat),
    (setNeoRef cads x j).get? i
      = if i = x then (cads.get? i).map (fun a => { a with neo := some j })
        else cads.get? i := by
  intro cads
  induction cads with
  | nil =>
    intro x j i
    show (([] : List CloseApproach).get? i) = _
    split <;> simp
  | cons a rest ih =>
    intro x j i
    cases x with
    | zero =>
      cases i with
      | zero => simp [setNeoRef]
      | succ i' => simp [setNeoRef]
    | succ x' =>
      cases i with
      | zero => simp [setNeoRef]
      | succ i' =>
        show (setNeoRef rest x' j).get? i' = _
        rw [ih x' j i']
        simp only [List.get?_cons_succ]
        by_cases h : i' = x'
        · rw [if_pos h, if_pos (by omega)]
        · rw [if_neg h, if_neg (by omega)]

theorem foldl_setNeoRef_get :
    ∀ (b : List Nat) (cads : List CloseApproach) (j i : Nat),
    (b.foldl (fun cs x => setNeoRef cs x j) cads).get? i
      = if i ∈ b then (cads.get? i).map (fun a => { a with neo := some j })
        else cads.get? i := by
  intro b
  induction b with
  | nil => intro cads j i; simp
  | cons x xs ih =>
    intro cads j i
    rw [List.foldl_cons, ih, setNeoRef_get]
    have hff : ∀ o : Option CloseApproach,
        (o.map (fun a => { a with neo := some j })).map
            (fun a => { a with neo := some j })
          = o.map (fun a => { a with neo := some j }) := by
      intro o
      cases o <;> rfl
    by_cases hxs : i ∈ xs
    · rw [if_pos hxs, if_pos (List.mem_cons_of_mem x hxs)]
      by_cases hx : i = x
      · rw [if_pos hx, hff]
      · rw [if_neg hx]
    · rw [if_neg hxs]
      by_cases hx : i = x
      · rw [if_pos hx, if_pos (show i ∈ x :: xs from hx ▸ List.mem_cons_self x xs)]
      · rw [if_neg hx, if_neg (show i ∉ x :: xs by simp [hx, hxs])]

theorem mem_matching_zero {cads : List CloseApproach} {des : String} {i : Nat} :
    i ∈ matching 0 cads des
      ↔ ∃ a, cads.get? i = some a ∧ a._designation = des := by
  rw [mem_matching]
  constructor
  · rintro ⟨k, a, hk, hdes, hi⟩
    exact ⟨a, by rw [show i = k by omega]; exact hk, hdes⟩
  · rintro ⟨a, hk, hdes⟩
    exact ⟨i, a, hk, hdes, by omega⟩

/-- The per-index effect of the whole linking loop on the approach list:
the approach at index `i` ends with its `neo` field overwritten by the last
NEO (if any) whose designation-walk reaches `i`'s bucket — under the
equal-length hypothesis, the last NEO whose designation equals the
approach's.  `cads0` is the collection the approach trie was built from;
`cads` is the current state of the approach list, which must still carry
the original designations. -/
theorem linkLoop_cads_get (cads0 : List CloseApproach) (L : Nat)
    (hc : ∀ a ∈ cads0, a._designation.data.length = L) :
    ∀ (neos : List NearEarthObject) (j : Nat) (cads : List CloseApproach)
      (nt : NTrie) (named : List Nat),
    (∀ neo ∈ neos, neo.designation.data.length = L) →
    (∀ i, (cads.get? i).map (·._designation)
        = (cads0.get? i).map (·._designation)) →
    ∀ i,
    (linkLoop (buildCadTrie cads0) j neos cads nt named).2.1.get? i
      = match lastNeoIdx j neos ((cads0.getD i default)._designation) with
        | some k => (cads.get? i).map (fun a => { a with neo := some k })
        | none => cads.get? i := by
  intro neos
  induction neos with
  | nil =>
    intro j cads nt named _ _ i
    simp [linkLoop, lastNeoIdx]
  | cons neo rest ih =>
    intro j cads nt named hlen hdes i
    have hwalk : ((buildCadTrie cads0).walkT neo.designation.data).val
        = matching 0 cads0 neo.designation :=
      walk_val_buildCadTrie cads0 neo.designation L hc
        (hlen neo (List.mem_cons_self _ _))
    -- the state of the approach list after processing the head NEO
    have hstep : ∀ (cs : List CloseApproach) (i0 : Nat),
        (if ((buildCadTrie cads0).walkT neo.designation.data).val ≠ [] then
          (((buildCadTrie cads0).walkT neo.designation.data).val).foldl
            (fun cs i => setNeoRef cs i j) cs
         else cs).get? i0
        = if i0 ∈ matching 0 cads0 neo.designation then
            (cs.get? i0).map (fun a => { a with neo := some j })
          else cs.get? i0 := by
      intro cs i0
      by_cases hb : ((buildCadTrie cads0).walkT neo.designation.data).val = []
      · rw [if_neg (by simp [hb]),
          if_neg (show i0 ∉ matching 0 cads0 neo.designation by
            rw [← hwalk, hb]; simp)]
      · rw [if_pos hb, foldl_setNeoRef_get, hwalk]
    have hdes' : ∀ i',
        ((if ((buildCadTrie cads0).walkT neo.designation.data).val ≠ [] then
          (((buildCadTrie cads0).walkT neo.designation.data).val).foldl
            (fun cs i => setNeoRef cs i j) cads
         else cads).get? i').map (·._designation)
        = (cads0.get? i').map (·._designation) := by
      intro i'
      rw [hstep cads i']
      by_cases hm : i' ∈ matching 0 cads0 neo.designation
      · rw [if_pos hm, ← hdes i']
        cases cads.get? i' <;> rfl
      · rw [if_neg hm]
        exact hdes i'
    have hih := ih (j + 1)
      (if ((buildCadTrie cads0).walkT neo.designation.data).val ≠ [] then
        (((buildCadTrie cads0).walkT neo.designation.data).val).foldl
          (fun cs i => setNeoRef cs i j) cads
       else cads)
      (insertNeo nt neo.designation.data j)
      (if neo.name ≠ some "" then named ++ [j] else named)
      (fun x hx => hlen x (List.mem_cons_of_mem _ hx)) hdes' i
    simp only [linkLoop]
    rw [hih, hstep cads i]
    cases hl : lastNeoIdx (j + 1) rest ((cads0.getD i default)._designation) with
    | some k =>
      show _ = (match lastNeoIdx j (neo :: rest)
          ((cads0.getD i default)._designation) with
        | some k => (cads.get? i).map (fun a => { a with neo := some k })
        | none => cads.get? i)
      rw [show lastNeoIdx j (neo :: rest) ((cads0.getD i default)._designation)
          = some k by rw [lastNeoIdx, hl]]
      by_cases hm : i ∈ matching 0 cads0 neo.designation
      · rw [if_pos hm]
        cases cads.get? i <;> rfl
      · rw [if_neg hm]
    | none =>
      show (if i ∈ matching 0 cads0 neo.designation then
          (cads.get? i).map (fun a => { a with neo := some j })
        else cads.get? i) = _
      rw [show lastNeoIdx j (neo :: rest) ((cads0.getD i default)._designation)
          = (if neo.designation = (cads0.getD i default)._designation then
              some j else none) by rw [lastNeoIdx, hl]]
      cases hg : cads0.get? i with
      | some a =>
        have hgd : cads0.getD i default = a := by
          show (cads0.get? i).getD default = a
          rw [hg]
          rfl
        by_cases hm : i ∈ matching 0 cads0 neo.designation
        · obtain ⟨a', ha', hdes_a⟩ := mem_matching_zero.mp hm
          rw [hg] at ha'
          cases ha'
          rw [if_pos hm, hgd, if_pos hdes_a.symm]
        · rw [if_neg hm, hgd,
            if_neg (fun hh => hm (mem_matching_zero.mpr ⟨a, hg, hh.symm⟩))]
      | none =>
        have hcnone : cads.get? i = none := by
          have := hdes i
          rw [hg] at this
          simp only [Option.map_none'] at this
          exact Option.map_eq_none'.mp this
        have hm : i ∉ matching 0 cads0 neo.designation := by
          intro hmem
          obtain ⟨a', ha', _⟩ := mem_matching_zero.mp hmem
          rw [hg] at ha'
          cases ha'
        rw [if_neg hm, hcnone]
        split <;> rfl

/-! ### The filter evaluation and the query loop -/

theorem va_time (neos : List NearEarthObject) (a : CloseApproach) (op : PyOp)
    (v : Date) :
    valid_attribute neos a op (.vdate v) .time = .ok (opDate op a.time.date v) :=
  rfl

theorem va_distance (neos : List NearEarthObject) (a : CloseApproach)
    (op : PyOp) (v : Rat) :
    valid_attribute neos a op (.vrat v) .distance = .ok (opRat op a.distance v) :=
  rfl

theorem va_velocity (neos : List NearEarthObject) (a : CloseApproach)
    (op : PyOp) (v : Rat) :
    valid_attribute neos a op (.vrat v) .velocity = .ok (opRat op a.velocity v) :=
  rfl

theorem va_diameter_unlinked {a : CloseApproach} (neos : List NearEarthObject)
    (op : PyOp) (v : Rat) (h : a.neo = none) :
    valid_attribute neos a op (.vrat v) .diameter = .error () := by
  simp [valid_attribute, h]

theorem va_hazardous_unlinked {a : CloseApproach} (neos : List NearEarthObject)
    (op : PyOp) (v : Bool) (h : a.neo = none) :
    valid_attribute neos a op (.vbool v) .hazardous = .error () := by
  simp [valid_attribute, h]

theorem va_diameter_linked {a : CloseApproach} {k : Nat}
    (neos : List NearEarthObject) (op : PyOp) (v : Rat) (h : a.neo = some k) :
    valid_attribute neos a op (.vrat v) .diameter
      = .ok (opPFloat op (neos.getD k default).diameter v) := by
  simp [valid_attribute, h]

theorem va_hazardous_linked {a : CloseApproach} {k : Nat}
    (neos : List NearEarthObject) (op : PyOp) (v : Bool) (h : a.neo = some k) :
    valid_attribute neos a op (.vbool v) .hazardous
      = .ok (opBool op (neos.getD k default).hazardous v) := by
  simp [valid_attribute, h]

theorem apCrit_none {β : Type} (neos : List NearEarthObject)
    (a : CloseApproach) (r : Except Unit Bool) (op : PyOp) (mk : β → PyVal)
    (attr : AttrName) : apCrit neos a r none op mk attr = r := rfl

theorem apCrit_of_error {β : Type} (neos : List NearEarthObject)
    (a : CloseApproach) (crit : Option β) (op : PyOp) (mk : β → PyVal)
    (attr : AttrName) (e : Unit) :
    apCrit neos a (.error e) crit op mk attr = .error e := by
  cases crit <;> rfl

theorem apCrit_ok_some {β : Type} {neos : List NearEarthObject}
    {a : CloseApproach} {op : PyOp} {mk : β → PyVal} {attr : AttrName}
    {v : β} {b f0 : Bool}
    (hv : valid_attribute neos a op (mk v) attr = .ok b) :
    apCrit neos a (.ok f0) (some v) op mk attr = .ok (f0 && b) := by
  simp only [apCrit, hv]
  rfl

theorem apCrit_ok_error {β : Type} {neos : List NearEarthObject}
    {a : CloseApproach} {op : PyOp} {mk : β → PyVal} {attr : AttrName}
    {v : β} {f0 : Bool}
    (hv : valid_attribute neos a op (mk v) attr = .error ()) :
    apCrit neos a (.ok f0) (some v) op mk attr = .error () := by
  simp only [apCrit, hv]
  rfl

theorem apCrit_ok_chain {β : Type} {neos : List NearEarthObject}
    {a : CloseApproach} {r : Except Unit Bool} (crit : Option β) (op : PyOp)
    (mk : β → PyVal) (attr : AttrName) (hr : ∃ b0, r = .ok b0)
    (hva : ∀ v, ∃ b, valid_attribute neos a op (mk v) attr = .ok b) :
    ∃ b, apCrit neos a r crit op mk attr = .ok b := by
  obtain ⟨b0, rfl⟩ := hr
  cases crit with
  | none => exact ⟨b0, rfl⟩
  | some v =>
    obtain ⟨b, hb⟩ := hva v
    exact ⟨b0 && b, apCrit_ok_some hb⟩

/-- A linked approach never makes `valid_attribute` raise, so the whole
per-approach criterion chain succeeds. -/
theorem checkApproach_ok_of_linked {neos : List NearEarthObject}
    {f : Filters} {a : CloseApproach} {k : Nat} (h : a.neo = some k) :
    ∃ b, checkApproach neos f a = .ok b := by
  refine apCrit_ok_chain _ _ _ _ ?_ (fun v => ⟨_, va_hazardous_linked neos _ v h⟩)
  refine apCrit_ok_chain _ _ _ _ ?_ (fun v => ⟨_, va_diameter_linked neos _ v h⟩)
  refine apCrit_ok_chain _ _ _ _ ?_ (fun v => ⟨_, va_diameter_linked neos _ v h⟩)
  refine apCrit_ok_chain _ _ _ _ ?_ (fun v => ⟨_, rfl⟩)
  refine apCrit_ok_chain _ _ _ _ ?_ (fun v => ⟨_, rfl⟩)
  refine apCrit_ok_chain _ _ _ _ ?_ (fun v => ⟨_, rfl⟩)
  refine apCrit_ok_chain _ _ _ _ ?_ (fun v => ⟨_, rfl⟩)
  refine apCrit_ok_chain _ _ _ _ ?_ (fun v => ⟨_, rfl⟩)
  refine apCrit_ok_chain _ _ _ _ ?_ (fun v => ⟨_, rfl⟩)
  exact apCrit_ok_chain _ _ _ _ ⟨true, rfl⟩ (fun v => ⟨_, rfl⟩)

/-- With no NEO-level criterion active, the per-approach criterion chain
succeeds whether or not the approach is linked. -/
theorem checkApproach_ok_of_no_neocrit {neos : List NearEarthObject}
    {f : Filters} {a : CloseApproach} (h1 : f.diameter_min = none)
    (h2 : f.diameter_max = none) (h3 : f.hazardous = none) :
    ∃ b, checkApproach neos f a = .ok b := by
  show ∃ b, apCrit neos a (apCrit neos a (apCrit neos a _
    f.diameter_min .ge PyVal.vrat .diameter)
    f.diameter_max .le PyVal.vrat .diameter)
    f.hazardous .eq PyVal.vbool .hazardous = .ok b
  rw [h1, h2, h3, apCrit_none, apCrit_none, apCrit_none]
  refine apCrit_ok_chain _ _ _ _ ?_ (fun v => ⟨_, rfl⟩)
  refine apCrit_ok_chain _ _ _ _ ?_ (fun v => ⟨_, rfl⟩)
  refine apCrit_ok_chain _ _ _ _ ?_ (fun v => ⟨_, rfl⟩)
  refine apCrit_ok_chain _ _ _ _ ?_ (fun v => ⟨_, rfl⟩)
  refine apCrit_ok_chain _ _ _ _ ?_ (fun v => ⟨_, rfl⟩)
  refine apCrit_ok_chain _ _ _ _ ?_ (fun v => ⟨_, rfl⟩)
  exact apCrit_ok_chain _ _ _ _ ⟨true, rfl⟩ (fun v => ⟨_, rfl⟩)

/-- An unlinked approach makes the criterion chain raise as soon as a
diameter or hazardous criterion is active. -/
theorem checkApproach_error_of_unlinked {neos : List NearEarthObject}
    {f : Filters} {a : CloseApproach} (h : a.neo = none)
    (hcrit : f.diameter_min ≠ none ∨ f.diameter_max ≠ none ∨ f.hazardous ≠ none) :
    checkApproach neos f a = .error () := by
  have h7 : ∃ b0,
      apCrit neos a (apCrit neos a (apCrit neos a (apCrit neos a
        (apCrit neos a (apCrit neos a (apCrit neos a (Except.ok true)
          f.date .eq PyVal.vdate .time)
          f.start_date .ge PyVal.vdate .time)
          f.end_date .le PyVal.vdate .time)
          f.distance_min .ge PyVal.vrat .distance)
          f.distance_max .le PyVal.vrat .distance)
          f.velocity_min .ge PyVal.vrat .velocity)
          f.velocity_max .le PyVal.vrat .velocity = .ok b0 := by
    refine apCrit_ok_chain _ _ _ _ ?_ (fun v => ⟨_, rfl⟩)
    refine apCrit_ok_chain _ _ _ _ ?_ (fun v => ⟨_, rfl⟩)
    refine apCrit_ok_chain _ _ _ _ ?_ (fun v => ⟨_, rfl⟩)
    refine apCrit_ok_chain _ _ _ _ ?_ (fun v => ⟨_, rfl⟩)
    refine apCrit_ok_chain _ _ _ _ ?_ (fun v => ⟨_, rfl⟩)
    refine apCrit_ok_chain _ _ _ _ ?_ (fun v => ⟨_, rfl⟩)
    exact apCrit_ok_chain _ _ _ _ ⟨true, rfl⟩ (fun v => ⟨_, rfl⟩)
  obtain ⟨b0, hb0⟩ := h7
  show apCrit neos a (apCrit neos a (apCrit neos a _
    f.diameter_min .ge PyVal.vrat .diameter)
    f.diameter_max .le PyVal.vrat .diameter)
    f.hazardous .eq PyVal.vbool .hazardous = .error ()
  rw [hb0]
  cases hdm : f.diameter_min with
  | some v =>
    rw [apCrit_ok_error (va_diameter_unlinked neos _ v h),
      apCrit_of_error, apCrit_of_error]
  | none =>
    rw [apCrit_none]
    cases hdx : f.diameter_max with
    | some v =>
      rw [apCrit_ok_error (va_diameter_unlinked neos _ v h), apCrit_of_error]
    | none =>
      rw [apCrit_none]
      cases hhz : f.hazardous with
      | some v => rw [apCrit_ok_error (va_hazardous_unlinked neos _ v h)]
      | none =>
        rw [hdm] at hcrit
        rw [hdx] at hcrit
        rw [hhz] at hcrit
        simp at hcrit

theorem queryLoop_nil (neos : List NearEarthObject) (f : Filters) (n : Nat) :
    queryLoop neos f n [] = ⟨[], true⟩ := rfl

theorem queryLoop_cons_error {neos : List NearEarthObject} {f : Filters}
    {a : CloseApproach} (n : Nat) (rest : List CloseApproach)
    (h : checkApproach neos f a = .error ()) :
    queryLoop neos f n (a :: rest) = ⟨[], false⟩ := by
  simp [queryLoop, h]

theorem queryLoop_cons_ok {neos : List NearEarthObject} {f : Filters}
    {a : CloseApproach} {b : Bool} (n : Nat) (rest : List CloseApproach)
    (h : checkApproach neos f a = .ok b) :
    queryLoop neos f n (a :: rest)
      = ⟨(if b then [n] else []) ++ (queryLoop neos f (n + 1) rest).yielded,
         (queryLoop neos f (n + 1) rest).ok⟩ := by
  simp [queryLoop, h]

theorem checkApproach_emptyFilterSet (neos : List NearEarthObject)
    (a : CloseApproach) : checkApproach neos emptyFilterSet a = .ok true := rfl

/-- An inactive filter set filters nothing: the query yields every index in
order and finishes normally. -/
theorem queryLoop_emptyFilterSet (neos : List NearEarthObject) :
    ∀ (cads : List CloseApproach) (n : Nat),
    queryLoop neos emptyFilterSet n cads = ⟨List.range' n cads.length, true⟩ := by
  intro cads
  induction cads with
  | nil => intro n; rfl
  | cons a rest ih =>
    intro n
    rw [queryLoop_cons_ok n rest (checkApproach_emptyFilterSet neos a), ih]
    rfl

theorem queryLoop_yielded_sublist (neos : List NearEarthObject) (f : Filters) :
    ∀ (cads : List CloseApproach) (n : Nat),
    ((queryLoop neos f n cads).yielded).Sublist (List.range' n cads.length) := by
  intro cads
  induction cads with
  | nil => intro n; exact List.nil_sublist _
  | cons a rest ih =>
    intro n
    have hr : List.range' n (a :: rest).length = n :: List.range' (n + 1) rest.length :=
      rfl
    rw [hr]
    cases hchk : checkApproach neos f a with
    | error e =>
      rw [queryLoop_cons_error n rest (by rw [hchk])]
      exact List.nil_sublist _
    | ok b =>
      rw [queryLoop_cons_ok n rest hchk]
      cases b with
      | true => exact (ih (n + 1)).cons₂ n
      | false => exact (ih (n + 1)).cons n

theorem queryLoop_ok_of_all {neos : List NearEarthObject} {f : Filters} :
    ∀ {cads : List CloseApproach} (n : Nat),
    (∀ a ∈ cads, ∃ b, checkApproach neos f a = .ok b) →
    (queryLoop neos f n cads).ok = true := by
  intro cads
  induction cads with
  | nil => intro n _; rfl
  | cons a rest ih =>
    intro n h
    obtain ⟨b, hb⟩ := h a (List.mem_cons_self _ _)
    rw [queryLoop_cons_ok n rest hb]
    exact ih (n + 1) (fun x hx => h x (List.mem_cons_of_mem _ hx))

theorem queryLoop_mem_of {neos : List NearEarthObject} {f : Filters} :
    ∀ {cads : List CloseApproach} (n i : Nat) {a : CloseApproach},
    (∀ x ∈ cads, ∃ b, checkApproach neos f x = .ok b) →
    cads.get? i = some a → checkApproach neos f a = .ok true →
    (n + i) ∈ (queryLoop neos f n cads).yielded := by
  intro cads
  induction cads with
  | nil => intro n i a _ hi; simp at hi
  | cons a0 rest ih =>
    intro n i a h hi hfit
    obtain ⟨b0, hb0⟩ := h a0 (List.mem_cons_self _ _)
    rw [queryLoop_cons_ok n rest hb0]
    cases i with
    | zero =>
      simp only [List.get?_cons_zero] at hi
      cases hi
      rw [hfit] at hb0
      cases hb0
      simp
    | succ i' =>
      simp only [List.get?_cons_succ] at hi
      have := ih (n + 1) i' (fun x hx => h x (List.mem_cons_of_mem _ hx)) hi hfit
      simp only [QueryResult.yielded]
      rw [List.mem_append]
      right
      have harith : n + (i' + 1) = (n + 1) + i' := by omega
      rw [harith]
      exact this

theorem queryLoop_false_of_unlinked {neos : List NearEarthObject} {f : Filters}
    (hcrit : f.diameter_min ≠ none ∨ f.diameter_max ≠ none ∨ f.hazardous ≠ none) :
    ∀ {cads : List CloseApproach} (n : Nat),
    (∃ a ∈ cads, a.neo = none) → (queryLoop neos f n cads).ok = false := by
  intro cads
  induction cads with
  | nil => rintro n ⟨a, ha, _⟩; simp at ha
  | cons a0 rest ih =>
    rintro n ⟨a, ha, hneo⟩
    cases ha0 : a0.neo with
    | none =>
      rw [queryLoop_cons_error n rest (checkApproach_error_of_unlinked ha0 hcrit)]
    | some k =>
      obtain ⟨b, hb⟩ := checkApproach_ok_of_linked (f := f) ha0
      rw [queryLoop_cons_ok n rest hb]
      rcases List.mem_cons.mp ha with rfl | hrest
      · rw [ha0] at hneo; cases hneo
      · exact ih (n + 1) ⟨a, hrest, hneo⟩

/-! ### Lookup by designation and by name over the built database -/

theorem pAt_root (x : List Char) : pAt (⟨none, []⟩ : NTrie) x = none := by
  rw [pAt, valAt_leaf]
  split <;> rfl

theorem lastNeoIdx_some :
    ∀ (neos : List NearEarthObject) (j : Nat) (s : String) (k : Nat),
    lastNeoIdx j neos s = some k →
    ∃ k' neo, k = j + k' ∧ neos.get? k' = some neo ∧ neo.designation = s := by
  intro neos
  induction neos with
  | nil => intro j s k h; simp [lastNeoIdx] at h
  | cons neo0 rest ih =>
    intro j s k h
    rw [lastNeoIdx] at h
    cases hl : lastNeoIdx (j + 1) rest s with
    | some k0 =>
      rw [hl] at h
      cases h
      obtain ⟨k', neo, hk, hget, hdes⟩ := ih (j + 1) s _ hl
      exact ⟨k' + 1, neo, by omega, hget, hdes⟩
    | none =>
      rw [hl] at h
      by_cases hd : neo0.designation = s
      · rw [if_pos hd] at h
        cases h
        exact ⟨0, neo0, by omega, rfl, hd⟩
      · rw [if_neg hd] at h
        cases h

theorem lastNeoIdx_none :
    ∀ (neos : List NearEarthObject) (j : Nat) (s : String),
    lastNeoIdx j neos s = none →
    ∀ (k : Nat) (neo : NearEarthObject),
    neos.get? k = some neo → neo.designation ≠ s := by
  intro neos
  induction neos with
  | nil => intro j s _ k neo hget; simp at hget
  | cons neo0 rest ih =>
    intro j s h k neo hget
    rw [lastNeoIdx] at h
    cases hl : lastNeoIdx (j + 1) rest s with
    | some k0 => rw [hl] at h; cases h
    | none =>
      rw [hl] at h
      by_cases hd : neo0.designation = s
      · rw [if_pos hd] at h; cases h
      · cases k with
        | zero =>
          simp only [List.get?_cons_zero] at hget
          cases hget
          exact hd
        | succ k' =>
          simp only [List.get?_cons_succ] at hget
          exact ih (j + 1) s hl k' neo hget

theorem lastNeoIdx_none_of_all :
    ∀ (neos : List NearEarthObject) (j : Nat) (s : String),
    (∀ neo ∈ neos, neo.designation ≠ s) → lastNeoIdx j neos s = none := by
  intro neos
  induction neos with
  | nil => intro j s _; rfl
  | cons neo0 rest ih =>
    intro j s h
    rw [lastNeoIdx, ih (j + 1) s (fun x hx => h x (List.mem_cons_of_mem _ hx)),
      if_neg (h neo0 (List.mem_cons_self _ _))]

/-- With pairwise-distinct designations, the index found is exactly the
index of the NEO carrying the designation. -/
theorem lastNeoIdx_of_unique :
    ∀ (neos : List NearEarthObject) (j : Nat) (k : Nat)
      (neo : NearEarthObject),
    List.Pairwise (fun x y => x.designation ≠ y.designation) neos →
    neos.get? k = some neo →
    lastNeoIdx j neos neo.designation = some (j + k) := by
  intro neos
  induction neos with
  | nil => intro j k neo _ hget; simp at hget
  | cons neo0 rest ih =>
    intro j k neo hpw hget
    obtain ⟨hhead, hrest⟩ := List.pairwise_cons.mp hpw
    cases k with
    | zero =>
      simp only [List.get?_cons_zero] at hget
      cases hget
      rw [lastNeoIdx,
        lastNeoIdx_none_of_all rest (j + 1) _
          (fun x hx hdx => hhead x hx hdx.symm),
        if_pos rfl, Nat.add_zero]
    | succ k' =>
      simp only [List.get?_cons_succ] at hget
      rw [lastNeoIdx, ih (j + 1) k' neo hrest hget]
      show some (j + 1 + k') = some (j + (k' + 1))
      rw [Nat.add_assoc, Nat.add_comm 1 k']

theorem lastNameIdx_none' :
    ∀ (neos : List NearEarthObject) (j : Nat) (nm : Option String),
    lastNameIdx j neos nm = none →
    ∀ (k : Nat) (neo : NearEarthObject),
    neos.get? k = some neo → neo.name ≠ nm := by
  intro neos
  induction neos with
  | nil => intro j nm _ k neo hget; simp at hget
  | cons neo0 rest ih =>
    intro j nm h k neo hget
    rw [lastNameIdx] at h
    cases hl : lastNameIdx (j + 1) rest nm with
    | some k0 => rw [hl] at h; cases h
    | none =>
      rw [hl] at h
      by_cases hd : neo0.name = nm
      · rw [if_pos hd] at h; cases h
      · cases k with
        | zero =>
          simp only [List.get?_cons_zero] at hget
          cases hget
          exact hd
        | succ k' =>
          simp only [List.get?_cons_succ] at hget
          exact ih (j + 1) nm hl k' neo hget

theorem lastNameIdx_some :
    ∀ (neos : List NearEarthObject) (j : Nat) (nm : Option String) (k : Nat),
    lastNameIdx j neos nm = some k →
    ∃ k' neo, k = j + k' ∧ neos.get? k' = some neo ∧ neo.name = nm
      ∧ ∀ (k'' : Nat) (neo' : NearEarthObject),
          neos.get? k'' = some neo' → neo'.name = nm → k'' ≤ k' := by
  intro neos
  induction neos with
  | nil => intro j nm k h; simp [lastNameIdx] at h
  | cons neo0 rest ih =>
    intro j nm k h
    rw [lastNameIdx] at h
    cases hl : lastNameIdx (j + 1) rest nm with
    | some k0 =>
      rw [hl] at h
      cases h
      obtain ⟨k', neo, hk, hget, hnm, hmax⟩ := ih (j + 1) nm _ hl
      refine ⟨k' + 1, neo, by omega, hget, hnm, ?_⟩
      intro k'' neo' hget'' hnm''
      cases k'' with
      | zero => omega
      | succ k3 =>
        simp only [List.get?_cons_succ] at hget''
        have := hmax k3 neo' hget'' hnm''
        omega
    | none =>
      rw [hl] at h
      by_cases hd : neo0.name = nm
      · rw [if_pos hd] at h
        cases h
        refine ⟨0, neo0, by omega, rfl, hd, ?_⟩
        intro k'' neo' hget'' hnm''
        cases k'' with
        | zero => omega
        | succ k3 =>
          simp only [List.get?_cons_succ] at hget''
          exact absurd hnm''
            (lastNameIdx_none' rest (j + 1) nm hl k3 neo' hget'')
      · rw [if_neg hd] at h
        cases h

theorem linkLoop_neos_length (ct : CTrie) :
    ∀ (neos : List NearEarthObject) (j : Nat) (cads : List CloseApproach)
      (nt : NTrie) (named : List Nat),
    (linkLoop ct j neos cads nt named).1.length = neos.length := by
  intro neos
  induction neos with
  | nil => intro j cads nt named; rfl
  | cons neo rest ih =>
    intro j cads nt named
    simp only [linkLoop, List.length_cons]
    rw [ih]

theorem build_neos_get (neos : List NearEarthObject)
    (cads : List CloseApproach) (k : Nat) :
    (NEODatabase.build neos cads).neos.get? k
      = (neos.get? k).map (fun neo =>
          { neo with approaches := neo.approaches
              ++ ((buildCadTrie cads).walkT neo.designation.data).val }) :=
  linkLoop_neos_get (buildCadTrie cads) neos 0 cads ⟨none, []⟩ [] k

theorem build_neos_name (neos : List NearEarthObject)
    (cads : List CloseApproach) (x : Nat) :
    ((NEODatabase.build neos cads).neos.getD x default).name
      = (neos.getD x default).name := by
  show (((NEODatabase.build neos cads).neos.get? x).getD default).name
    = ((neos.get? x).getD default).name
  rw [build_neos_get]
  cases neos.get? x <;> rfl

/-- `get_neo_by_designation` on a built database finds the payload written
last for that exact designation, whenever one was written. -/
theorem get_neo_by_designation_build (neos : List NearEarthObject)
    (cads : List CloseApproach) (s : String) (k : Nat)
    (h : lastNeoIdx 0 neos s = some k) :
    get_neo_by_designation (NEODatabase.build neos cads) s = some k := by
  have hpat : pAt (NEODatabase.build neos cads).neo_trie s.data = some k := by
    have hp := pAt_linkLoop (buildCadTrie cads) neos 0 cads ⟨none, []⟩ [] s
    rw [h] at hp
    exact hp
  have hf := findT_isSome_of_pAt_some hpat
  obtain ⟨u, hu⟩ := Option.isSome_iff_exists.mp hf
  have hw := walk_of_find s.data _ u hu
  show ((NEODatabase.build neos cads).neo_trie.walkT s.data).val = some k
  rw [hw]
  have hval : pAt (NEODatabase.build neos cads).neo_trie s.data = u.val := by
    rw [pAt, valAt, hu]
    rfl
  rw [← hval, hpat]

/-- Scanning the named list for an exact non-empty name keeps the last
match, exactly `lastNameIdx`. -/
theorem foldl_named_scan (dbn : List NearEarthObject) (s : String)
    (hs : s ≠ "") :
    ∀ (neos : List NearEarthObject) (j : Nat) (acc : Option Nat),
    (∀ (k : Nat) (neo : NearEarthObject), neos.get? k = some neo →
        (dbn.getD (j + k) default).name = neo.name) →
    List.foldl
        (fun acc x => if (dbn.getD x default).name = some s then some x else acc)
        acc (namedIdx j neos)
      = match lastNameIdx j neos (some s) with
        | some k => some k
        | none => acc := by
  intro neos
  induction neos with
  | nil => intro j acc _; rfl
  | cons neo0 rest ih =>
    intro j acc h
    have hj : (dbn.getD j default).name = neo0.name := by
      have h0 := h 0 neo0 rfl
      rw [Nat.add_zero] at h0
      exact h0
    have hshift : ∀ (k : Nat) (neo : NearEarthObject),
        rest.get? k = some neo →
        (dbn.getD ((j + 1) + k) default).name = neo.name := by
      intro k neo hk
      have hk1 := h (k + 1) neo (by simpa using hk)
      rw [show j + (k + 1) = (j + 1) + k by omega] at hk1
      exact hk1
    rw [namedIdx, List.foldl_append]
    have hhead : List.foldl
        (fun acc x => if (dbn.getD x default).name = some s then some x else acc)
        acc (if neo0.name ≠ some "" then [j] else [])
        = if neo0.name = some s then some j else acc := by
      by_cases hn : neo0.name ≠ some ""
      · rw [if_pos hn]
        show (if (dbn.getD j default).name = some s then some j else acc) = _
        rw [hj]
      · rw [if_neg hn]
        have hn' : neo0.name = some "" := not_not.mp hn
        show acc = _
        rw [hn',
          if_neg (show ¬((some "" : Option String) = some s) from
            fun hh => hs (Option.some.inj hh).symm)]
    rw [hhead, ih (j + 1) _ hshift, lastNameIdx]
    cases hl : lastNameIdx (j + 1) rest (some s) with
    | some k => rfl
    | none =>
      by_cases hm : neo0.name = some s
      · simp only [if_pos hm]
      · simp only [if_neg hm]

/-- `get_neo_by_name` on a built database is a last-match full scan over
the NEOs, for any non-empty name. -/
theorem get_neo_by_name_build (neos : List NearEarthObject)
    (cads : List CloseApproach) (s : String) (hs : s ≠ "") :
    get_neo_by_name (NEODatabase.build neos cads) (some s)
      = lastNameIdx 0 neos (some s) := by
  have hnamed : (NEODatabase.build neos cads).named_neo_list
      = namedIdx 0 neos := by
    have hn := linkLoop_named (buildCadTrie cads) neos 0 cads ⟨none, []⟩ []
    simpa using hn
  simp only [get_neo_by_name]
  rw [hnamed,
    foldl_named_scan (NEODatabase.build neos cads).neos s hs neos 0 none
      (fun k neo hk => by
        rw [Nat.zero_add, build_neos_name]
        show ((neos.get? k).getD default).name = neo.name
        rw [hk]
        rfl)]
  cases lastNameIdx 0 neos (some s) <;> rfl

end NeoSys


namespace NeoSys

/-! ### Supporting facts for the claim theorems -/

theorem pairwise_des_get_unique :
    ∀ {l : List NearEarthObject},
    List.Pairwise (fun x y => x.designation ≠ y.designation) l →
    ∀ (k k' : Nat) (x y : NearEarthObject),
    l.get? k = some x → l.get? k' = some y →
    x.designation = y.designation → k = k' := by
  intro l
  induction l with
  | nil => intro _ k k' x y hx; simp at hx
  | cons a rest ih =>
    intro hpw k k' x y hx hy hdes
    obtain ⟨hhead, hrest⟩ := List.pairwise_cons.mp hpw
    cases k with
    | zero =>
      cases k' with
      | zero => rfl
      | succ k2 =>
        simp only [List.get?_cons_zero] at hx
        cases hx
        simp only [List.get?_cons_succ] at hy
        exact absurd hdes (hhead y (List.get?_mem hy))
    | succ k1 =>
      cases k' with
      | zero =>
        simp only [List.get?_cons_zero] at hy
        cases hy
        simp only [List.get?_cons_succ] at hx
        exact absurd hdes.symm (hhead x (List.get?_mem hx))
      | succ k2 =>
        simp only [List.get?_cons_succ] at hx hy
        rw [ih hrest k1 k2 x y hx hy hdes]

end NeoSys

namespace NeoSys

/-! ### Claim theorems -/

/-- C1 counterexample: the claim fails as stated.  With the single NEO
`"abc"` and the single close approach whose foreign-key designation is
`"ab"`, no approach designation matches any NEO designation, yet after
construction the approach's `neo` reference is set (to the NEO `"abc"`)
and the approach appears in that NEO's `approaches` — the trie walk of
`database.py` silently skips the unmatched character `'c'`. -/
theorem c1_counterexample :
    ((NEODatabase.build
        [⟨"abc", none, .nan, false, []⟩]
        [⟨"ab", ⟨⟨2020, 1, 1⟩, 0, 0⟩, 1, 1, none⟩]).approaches.map (·.neo)
      = [some 0])
    ∧ ((NEODatabase.build
        [⟨"abc", none, .nan, false, []⟩]
        [⟨"ab", ⟨⟨2020, 1, 1⟩, 0, 0⟩, 1, 1, none⟩]).neos.map (·.approaches)
      = [[0]])
    ∧ ("ab" : String) ≠ "abc" := by
  decide

/-- C1 (amended): linking is correct as claimed provided additionally that
all designations in play (of NEOs and of approaches) have one common
length, so that the character-skipping trie walk can never land on another
designation's bucket.  Then: (1) every NEO's `approaches` is exactly the
input-ordered list of approach indices carrying its designation; (2) every
approach's `neo` is the last NEO with its designation (`none` when there
is no such NEO, i.e. unmatched approaches stay unlinked); (3)/(4)
`lastNeoIdx` is sound, so a linked approach satisfies
`approach.neo.designation = approach._designation`; (5) membership in
`matching` means designation equality; (6) with the claim's unique
designations the owning NEO is unique. -/
theorem c1_linking_amended (neos : List NearEarthObject)
    (cads : List CloseApproach) (L : Nat)
    (hneo : ∀ neo ∈ neos, neo.approaches = [])
    (hcad : ∀ a ∈ cads, a.neo = none)
    (hdist : List.Pairwise (fun x y => x.designation ≠ y.designation) neos)
    (hlen1 : ∀ neo ∈ neos, neo.designation.data.length = L)
    (hlen2 : ∀ a ∈ cads, a._designation.data.length = L) :
    (∀ (k : Nat) (neo : NearEarthObject), neos.get? k = some neo →
        (NEODatabase.build neos cads).neos.get? k
          = some { neo with approaches := matching 0 cads neo.designation })
    ∧ (∀ (i : Nat) (a : CloseApproach), cads.get? i = some a →
        (NEODatabase.build neos cads).approaches.get? i
          = some { a with neo := lastNeoIdx 0 neos a._designation })
    ∧ (∀ (s : String) (k : Nat), lastNeoIdx 0 neos s = some k →
        ∃ neo, neos.get? k = some neo ∧ neo.designation = s)
    ∧ (∀ (s : String), lastNeoIdx 0 neos s = none →
        ∀ (k : Nat) (neo : NearEarthObject), neos.get? k = some neo →
          neo.designation ≠ s)
    ∧ (∀ (s : String) (i : Nat), i ∈ matching 0 cads s ↔
        ∃ a, cads.get? i = some a ∧ a._designation = s)
    ∧ (∀ (k k' : Nat) (neo neo' : NearEarthObject),
        neos.get? k = some neo → neos.get? k' = some neo' →
        neo.designation = neo'.designation → k = k') := by
  refine ⟨?_, ?_, ?_, ?_, ?_, ?_⟩
  · intro k neo hk
    rw [build_neos_get, hk, Option.map_some',
      walk_val_buildCadTrie cads neo.designation L hlen2
        (hlen1 neo (List.get?_mem hk)),
      hneo neo (List.get?_mem hk), List.nil_append]
  · intro i a hi
    have hmain := linkLoop_cads_get cads L hlen2 neos 0 cads ⟨none, []⟩ []
      hlen1 (fun _ => rfl) i
    have hgd : cads.getD i default = a := by
      show (cads.get? i).getD default = a
      rw [hi]
      rfl
    rw [hgd] at hmain
    show (linkLoop (buildCadTrie cads) 0 neos cads ⟨none, []⟩ []).2.1.get? i = _
    rw [hmain]
    cases hl : lastNeoIdx 0 neos a._designation with
    | some k => rw [hi]; rfl
    | none =>
      rw [hi]
      have hne : a.neo = none := hcad a (List.get?_mem hi)
      show some a = some { a with neo := none }
      rw [show { a with neo := none } = a by
        cases a
        simp_all]
  · intro s k h
    obtain ⟨k', neo, hk, hget, hdes⟩ := lastNeoIdx_some neos 0 s k h
    rw [show k = k' by omega]
    exact ⟨neo, hget, hdes⟩
  · intro s h k neo hk
    exact lastNeoIdx_none neos 0 s h k neo hk
  · intro s i
    exact mem_matching_zero
  · intro k k' neo neo' hk hk' hdes
    exact pairwise_des_get_unique hdist k k' neo neo' hk hk' hdes

/-- C1 witness: the amended theorem applied to the one-NEO, one-approach
scenario with the common designation `"433"` (length 3): the approach ends
linked to NEO 0. -/
theorem c1_linking_amended_witness :
    (NEODatabase.build
        [⟨"433", some "Eros", .nan, false, []⟩]
        [⟨"433", ⟨⟨2020, 1, 1⟩, 0, 0⟩, 1, 1, none⟩]).approaches.get? 0
      = some { (⟨"433", ⟨⟨2020, 1, 1⟩, 0, 0⟩, 1, 1, none⟩ : CloseApproach) with
          neo := lastNeoIdx 0 [⟨"433", some "Eros", .nan, false, []⟩] "433" } :=
  (c1_linking_amended
    [⟨"433", some "Eros", .nan, false, []⟩]
    [⟨"433", ⟨⟨2020, 1, 1⟩, 0, 0⟩, 1, 1, none⟩] 3
    (by decide) (by decide) (by decide) (by decide) (by decide)).2.1 0
    ⟨"433", ⟨⟨2020, 1, 1⟩, 0, 0⟩, 1, 1, none⟩ rfl

end NeoSys

namespace NeoSys

/-- C2 counterexample: with one unlinked approach and an active
`diameter_min` criterion, the query aborts with the `AttributeError` of
dereferencing a `None` NEO (modelled as `ok = false`) instead of excluding
the record and finishing normally as the claim states. -/
theorem c2_counterexample :
    (NEODatabase.build []
        [⟨"433", ⟨⟨2020, 1, 1⟩, 0, 0⟩, 1, 1, none⟩]).query
        (create_filters none none none none none none none (some 1) none none)
      = ⟨[], false⟩ := by
  decide

/-- C2 (amended): an approach with an unresolved NEO reference makes the
query *raise* (the stream aborts with an attribute-lookup error) whenever
a `diameter_min`, `diameter_max` or `hazardous` criterion is active — it is
not silently excluded.  When only approach-level criteria are active the
query finishes normally and yields every approach (linked or not) whose
criteria all hold. -/
theorem c2_unlinked_behavior (db : NEODatabase) (f : Filters) :
    ((f.diameter_min ≠ none ∨ f.diameter_max ≠ none ∨ f.hazardous ≠ none) →
      (∃ a ∈ db.approaches, a.neo = none) → (db.query f).ok = false)
    ∧ (f.diameter_min = none → f.diameter_max = none → f.hazardous = none →
        (db.query f).ok = true
        ∧ ∀ (i : Nat) (a : CloseApproach), db.approaches.get? i = some a →
            checkApproach db.neos f a = .ok true →
            i ∈ (db.query f).yielded) := by
  constructor
  · intro hcrit hex
    exact queryLoop_false_of_unlinked hcrit 0 hex
  · intro h1 h2 h3
    have hall : ∀ a ∈ db.approaches, ∃ b, checkApproach db.neos f a = .ok b :=
      fun a _ => checkApproach_ok_of_no_neocrit h1 h2 h3
    refine ⟨queryLoop_ok_of_all 0 hall, ?_⟩
    intro i a hi hfit
    have hmem := queryLoop_mem_of 0 i hall hi hfit
    rw [Nat.zero_add] at hmem
    exact hmem

/-- C2 witness: on the one-unlinked-approach database, an active
`diameter_min` criterion aborts the query, while the inactive filter set
yields the approach. -/
theorem c2_unlinked_behavior_witness :
    ((NEODatabase.build []
        [⟨"433", ⟨⟨2020, 1, 1⟩, 0, 0⟩, 1, 1, none⟩]).query
        (create_filters none none none none none none none (some 1) none none)).ok
      = false
    ∧ 0 ∈ ((NEODatabase.build []
        [⟨"433", ⟨⟨2020, 1, 1⟩, 0, 0⟩, 1, 1, none⟩]).query
        emptyFilterSet).yielded :=
  ⟨(c2_unlinked_behavior
      (NEODatabase.build [] [⟨"433", ⟨⟨2020, 1, 1⟩, 0, 0⟩, 1, 1, none⟩])
      (create_filters none none none none none none none (some 1) none none)).1
      (by decide) (by decide),
   ((c2_unlinked_behavior
      (NEODatabase.build [] [⟨"433", ⟨⟨2020, 1, 1⟩, 0, 0⟩, 1, 1, none⟩])
      emptyFilterSet).2 rfl rfl rfl).2 0
      ⟨"433", ⟨⟨2020, 1, 1⟩, 0, 0⟩, 1, 1, none⟩ (by decide) rfl⟩

/-- C3 counterexample: the claim's "returns absent when no NEO's
designation equals s" fails.  With the single NEO `"ab"`, looking up
`"abc"` returns that NEO (the walk skips the trailing `'c'`), although no
NEO's designation equals `"abc"`. -/
theorem c3_counterexample :
    get_neo_by_designation
        (NEODatabase.build [⟨"ab", none, .nan, false, []⟩] []) "abc" = some 0
    ∧ (∀ neo ∈ [(⟨"ab", none, .nan, false, []⟩ : NearEarthObject)],
        neo.designation ≠ "abc") := by
  decide

/-- C3 (amended): the positive half holds — with pairwise-distinct
designations, looking up an existing NEO's exact designation returns that
NEO.  (When no designation equals the query string the lookup may still
return a partial match instead of `none`, as the counterexample shows.) -/
theorem c3_lookup_amended (neos : List NearEarthObject)
    (cads : List CloseApproach) (k : Nat) (neo : NearEarthObject)
    (hdist : List.Pairwise (fun x y => x.designation ≠ y.designation) neos)
    (hk : neos.get? k = some neo) :
    get_neo_by_designation (NEODatabase.build neos cads) neo.designation
      = some k := by
  have hlast := lastNeoIdx_of_unique neos 0 k neo hdist hk
  rw [Nat.zero_add] at hlast
  exact get_neo_by_designation_build neos cads neo.designation k hlast

/-- C3 witness: the amended theorem applied to the single NEO `"ab"`. -/
theorem c3_lookup_amended_witness :
    get_neo_by_designation
        (NEODatabase.build [⟨"ab", none, .nan, false, []⟩] [])
        (NearEarthObject.designation ⟨"ab", none, .nan, false, []⟩)
      = some 0 :=
  c3_lookup_amended [⟨"ab", none, .nan, false, []⟩] [] 0
    ⟨"ab", none, .nan, false, []⟩ (by decide) rfl

/-- C4: the claim is the code's own documented intent ("No NEOs are
associated with the empty string nor with the `None` singleton"), but the
code violates it: a NEO whose name was the empty string is stored with
name `None`, yet the `neo.name != ''` test in `NEODatabase.__init__` still
places it on the named list, so `get_neo_by_name(None)` returns it instead
of absent.  Lookup by `""` does return absent. -/
theorem c4_name_lookup_bug :
    (NearEarthObject.make "433" (some "") "" "").toList.length = 1
    ∧ get_neo_by_name
        (NEODatabase.build (NearEarthObject.make "433" (some "") "" "").toList
          []) none = some 0
    ∧ get_neo_by_name
        (NEODatabase.build (NearEarthObject.make "433" (some "") "" "").toList
          []) (some "") = none := by
  decide

end NeoSys

namespace NeoSys

/-- C5: querying a constructed database with the empty filter set (no
active criterion) yields exactly the full approach collection — every
index, in original input order, with no re-sorting — and finishes
normally; the linked collection has the same count as the input. -/
theorem c5_empty_query (neos : List NearEarthObject)
    (cads : List CloseApproach) :
    (NEODatabase.build neos cads).query emptyFilterSet
      = ⟨List.range (NEODatabase.build neos cads).approaches.length, true⟩
    ∧ (NEODatabase.build neos cads).approaches.length = cads.length := by
  constructor
  · show queryLoop _ emptyFilterSet 0 _ = _
    rw [queryLoop_emptyFilterSet, List.range_eq_range']
  · exact linkLoop_cads_length (buildCadTrie cads) neos 0 cads ⟨none, []⟩ []

/-- C6: activating the `diameter_min` criterion only removes results: the
indices yielded with `diameter_min = d` form a sublist (hence a subset, in
the same relative order) of the indices yielded with no active criteria,
for every `d` and every constructed database. -/
theorem c6_diameter_min_subset (neos : List NearEarthObject)
    (cads : List CloseApproach) (d : Rat) :
    (((NEODatabase.build neos cads).query
        (create_filters none none none none none none none (some d) none
          none)).yielded).Sublist
      (((NEODatabase.build neos cads).query emptyFilterSet).yielded) := by
  have hsub := queryLoop_yielded_sublist (NEODatabase.build neos cads).neos
    (create_filters none none none none none none none (some d) none none)
    (NEODatabase.build neos cads).approaches 0
  have hempty : ((NEODatabase.build neos cads).query emptyFilterSet).yielded
      = List.range' 0 (NEODatabase.build neos cads).approaches.length := by
    show (queryLoop _ emptyFilterSet 0 _).yielded = _
    rw [queryLoop_emptyFilterSet]
  rw [hempty]
  exact hsub

/-- C7: all three date criteria compare only the calendar-date portion of
the approach time (`.date()` truncation): the evaluation of a `time`
criterion is a pure function of `approach.time.date`, never raises, and in
particular an approach at `2020-01-01` with any time-of-day `hh:mi`
matches the exact-date criterion `2020-01-01`. -/
theorem c7_date_truncation (neos : List NearEarthObject) (a : CloseApproach)
    (op : PyOp) (d : Date) (des : String) (hh mi : Nat) (dist vel : Rat)
    (nr : Option Nat) :
    valid_attribute neos a op (.vdate d) .time = .ok (opDate op a.time.date d)
    ∧ checkApproach neos
        (create_filters (some ⟨2020, 1, 1⟩) none none none none none none
          none none none)
        ⟨des, ⟨⟨2020, 1, 1⟩, hh, mi⟩, dist, vel, nr⟩ = .ok true := by
  exact ⟨va_time neos a op d, rfl⟩

/-- C8: the spec's concrete scenario.  From the raw records
`{"433", "Eros", "16.84", ""}` and `{"433", "2020-Jan-01 00:00", "0.15",
"5.0"}` both constructors succeed; after construction the lookup of
`"433"` finds a NEO with exactly one linked approach; querying with
`hazardous := false` yields exactly that approach and with
`hazardous := true` yields nothing (both without error). -/
theorem c8_scenario :
    (NearEarthObject.make "433" (some "Eros") "16.84" "").toList.length = 1
    ∧ (CloseApproach.make "433" "2020-Jan-01 00:00" "0.15" "5.0").toList.length
        = 1
    ∧ ((get_neo_by_designation
          (NEODatabase.build
            (NearEarthObject.make "433" (some "Eros") "16.84" "").toList
            (CloseApproach.make "433" "2020-Jan-01 00:00" "0.15" "5.0").toList)
          "433").map (fun j =>
            ((NEODatabase.build
              (NearEarthObject.make "433" (some "Eros") "16.84" "").toList
              (CloseApproach.make "433" "2020-Jan-01 00:00" "0.15"
                "5.0").toList).neos.getD j default).approaches.length))
        = some 1
    ∧ (NEODatabase.build
          (NearEarthObject.make "433" (some "Eros") "16.84" "").toList
          (CloseApproach.make "433" "2020-Jan-01 00:00" "0.15" "5.0").toList).query
        (create_filters none none none none none none none none none
          (some false)) = ⟨[0], true⟩
    ∧ (NEODatabase.build
          (NearEarthObject.make "433" (some "Eros") "16.84" "").toList
          (CloseApproach.make "433" "2020-Jan-01 00:00" "0.15" "5.0").toList).query
        (create_filters none none none none none none none none none
          (some true)) = ⟨[], true⟩ := by
  decide

end NeoSys

namespace NeoSys

/-- C9: for every non-empty name, `get_neo_by_name` performs a full scan of
the named collection (built in input order) in which the last match wins:
the result is `lastNameIdx`, which is sound (the found NEO carries the
name) and maximal (it is the last input index carrying the name); when no
NEO carries the name the result is absent. -/
theorem c9_name_last_match (neos : List NearEarthObject)
    (cads : List CloseApproach) (s : String) (hs : s ≠ "") :
    get_neo_by_name (NEODatabase.build neos cads) (some s)
      = lastNameIdx 0 neos (some s)
    ∧ (∀ (k : Nat), lastNameIdx 0 neos (some s) = some k →
        ∃ neo, neos.get? k = some neo ∧ neo.name = some s
          ∧ ∀ (k' : Nat) (neo' : NearEarthObject),
              neos.get? k' = some neo' → neo'.name = some s → k' ≤ k)
    ∧ (lastNameIdx 0 neos (some s) = none →
        ∀ (k : Nat) (neo : NearEarthObject), neos.get? k = some neo →
          neo.name ≠ some s) := by
  refine ⟨get_neo_by_name_build neos cads s hs, ?_, ?_⟩
  · intro k hk
    obtain ⟨k', neo, hkk, hget, hnm, hmax⟩ :=
      lastNameIdx_some neos 0 (some s) k hk
    rw [show k = k' by omega]
    exact ⟨neo, hget, hnm, hmax⟩
  · intro hnone k neo hk
    exact lastNameIdx_none' neos 0 (some s) hnone k neo hk

/-- C9 witness: two NEOs both named `"Eros"`; the scan returns
`lastNameIdx`, which evaluates to the later one (index 1). -/
theorem c9_name_last_match_witness :
    ("Eros" : String) ≠ ""
    ∧ get_neo_by_name
        (NEODatabase.build
          [⟨"433", some "Eros", .nan, false, []⟩,
           ⟨"434", some "Eros", .nan, false, []⟩] []) (some "Eros")
      = lastNameIdx 0
          [⟨"433", some "Eros", .nan, false, []⟩,
           ⟨"434", some "Eros", .nan, false, []⟩] (some "Eros")
    ∧ lastNameIdx 0
        [⟨"433", some "Eros", .nan, false, []⟩,
         ⟨"434", some "Eros", .nan, false, []⟩] (some "Eros") = some 1 :=
  ⟨by decide,
   (c9_name_last_match
      [⟨"433", some "Eros", .nan, false, []⟩,
       ⟨"434", some "Eros", .nan, false, []⟩] [] "Eros" (by decide)).1,
   by decide⟩

/-- C10: the query engine itself truncates nothing (with no active
criteria it yields one index per stored approach); the downstream `limit`
yields at most the first `n` values for `n > 0` (exactly `take n`), and
for `n = 0` or `n` unset it applies the default truncation policy of 10
values. -/
theorem c10_limit_behavior (α : Type) (xs : List α) (n : Int)
    (db : NEODatabase) :
    (0 < n → limit xs (some n) = .ok (xs.take n.toNat)
        ∧ (xs.take n.toNat).length ≤ n.toNat)
    ∧ limit xs none = .ok (xs.take 10)
    ∧ limit xs (some 0) = .ok (xs.take 10)
    ∧ (db.query emptyFilterSet).yielded.length = db.approaches.length := by
  refine ⟨?_, rfl, rfl, ?_⟩
  · intro hn
    have hcond : ¬((some n = some (0 : Int)) ∨ (some n = (none : Option Int))) := by
      rintro (h | h)
      · have h0 := Option.some.inj h
        omega
      · cases h
    constructor
    · show (if (if some n = some (0 : Int) ∨ (some n : Option Int) = none
            then (10 : Int) else (some n).getD 0) < 0 then
          (Except.error () : Except Unit (List α))
        else .ok (xs.take (if some n = some (0 : Int) ∨
            (some n : Option Int) = none then (10 : Int)
          else (some n).getD 0).toNat)) = .ok (xs.take n.toNat)
      rw [if_neg hcond]
      show (if n < 0 then (Except.error () : Except Unit (List α))
        else .ok (xs.take n.toNat)) = .ok (xs.take n.toNat)
      rw [if_neg (by omega)]
    · exact List.length_take_le _ _
  · show (queryLoop _ emptyFilterSet 0 _).yielded.length = _
    rw [queryLoop_emptyFilterSet]
    exact List.length_range' _ _ _

/-- C10 witness: `limit` with `n = 3` on a five-element list keeps the
first three values, at most `3`. -/
theorem c10_limit_behavior_witness :
    (0 : Int) < 3
    ∧ limit [1, 2, 3, 4, 5] (some (3 : Int))
        = .ok ([1, 2, 3, 4, 5].take (3 : Int).toNat)
    ∧ ([1, 2, 3, 4, 5].take (3 : Int).toNat).length ≤ (3 : Int).toNat :=
  ⟨by decide,
   ((c10_limit_behavior Nat [1, 2, 3, 4, 5] 3 (NEODatabase.build [] [])).1
      (by decide)).1,
   ((c10_limit_behavior Nat [1, 2, 3, 4, 5] 3 (NEODatabase.build [] [])).1
      (by decide)).2⟩

end NeoSys
